import Mathlib

/-!
Shallow embedding of the TF-IDF scoring core of `tf-idf-rs`
(`src/domain/{term,document,corpus,tf_idf}.rs`), together with proofs of
the spec's claims about it.

Modelling conventions:
* Rust `HashMap`s become association lists.  `HashMap` iteration order is
  arbitrary in Rust; the list order fixes one such order.  All indexing
  computations are order-insensitive, and no claim depends on tie order.
* `usize` becomes `Nat`; `String` ids stay `String`.
* `f64` values are modelled as follows: term-frequency components are real
  numbers (`ℝ`), since every TF path is guarded against non-finite results;
  inverse-document-frequency components and scores live in `EReal` because
  the smoothed IDF computes `ln 0 = -inf` on an empty corpus.  IEEE NaN has
  no counterpart in `EReal`; the NaN-producing combinations (`0 * -inf`,
  `sqrt` of a negative, division by `0`/`inf`) are unreachable in every
  state the claims quantify over, and where `EReal` supplies junk values
  for them this is noted at the definition.
* Rust methods taking `&mut self` become functions returning a
  `result × new state` pair, so that the error paths visibly leave the
  state unchanged.
-/

namespace TfIdfRs

/-! ### Errors (`src/domain/mod.rs`, `src/domain/tf_idf.rs`) -/

/-- Error type specific to TF-IDF operations (`TfIdfError` in `tf_idf.rs`). -/
inductive TfIdfError where
  | CorpusNotIndexed : TfIdfError
  | InvalidCalculation : String → TfIdfError
  | DocumentNotFound : String → TfIdfError
deriving DecidableEq

/-- Domain-level error type (`DomainError` in `mod.rs`). -/
inductive DomainError where
  | NotFound : String → DomainError
  | InvalidOperation : String → DomainError
  | TfIdfErrorCase : TfIdfError → DomainError
  | Other : String → DomainError
deriving DecidableEq

/-! ### Term (`src/domain/term.rs`) -/

/-- A term.  Rust `PartialEq`/`Hash` for `Term` use only `text`, so every
map keyed by `Term` below compares keys by `text` alone. -/
structure Term where
  text : String
  is_stopword : Bool
  stem : Option String
deriving DecidableEq, Repr

/-- Constructor `Term::new`: not a stopword, no stem. -/
def Term.new (text : String) : Term := ⟨text, false, none⟩

/-- Constructor `Term::stopword`. -/
def Term.stopword (text : String) : Term := { Term.new text with is_stopword := true }

/-! ### Association-list maps

Rust `HashMap<Term, usize>` and `HashMap<String, _>` become association
lists; lookup returns the first entry whose key matches, and the
entry-update operations below rewrite the first matching entry, mirroring
a hash map's single slot per key. -/

/-- Lookup in a `Term`-keyed map; keys compare by `text` (Rust `Term` equality). -/
def tlookup (t : Term) : List (Term × Nat) → Option Nat
  | [] => none
  | (k, v) :: rest => if k.text == t.text then some v else tlookup t rest

/-- Lookup in a `String`-keyed map. -/
def slookup {α : Type _} (k : String) : List (String × α) → Option α
  | [] => none
  | (k', v) :: rest => if k' == k then some v else slookup k rest

/-- Insert-or-overwrite in a `String`-keyed map (Rust `HashMap::insert`). -/
def sinsert {α : Type _} (m : List (String × α)) (k : String) (v : α) : List (String × α) :=
  match m with
  | [] => [(k, v)]
  | (k', v') :: rest => if k' == k then (k', v) :: rest else (k', v') :: sinsert rest k v

/-- Model of `map.entry(term).or_insert(0); *count += 1` on a `Term`-keyed
count map, as performed by `Corpus::add_document` and `Corpus::build_index`
(both increment the document-frequency slot of a term by one). -/
def bumpKey : List (Term × Nat) → Term → List (Term × Nat)
  | [], t => [(t, 1)]
  | (k, v) :: rest, t =>
      if k.text == t.text then (k, v + 1) :: rest else (k, v) :: bumpKey rest t

/-- Model of the decrement step of `Corpus::remove_document`: if the term
has an entry, `saturating_sub(1)` it and delete the entry when the new
count is `0`; absent terms are untouched. -/
def dropKey : List (Term × Nat) → Term → List (Term × Nat)
  | [], _ => []
  | (k, v) :: rest, t =>
      if k.text == t.text then (if v - 1 = 0 then rest else (k, v - 1) :: rest)
      else (k, v) :: dropKey rest t

/-! ### Document (`src/domain/document.rs`) -/

/-- A text document (`Document` in `document.rs`).  `DocumentId` is a
newtype over `String` and is modelled as the raw string. -/
structure Document where
  id : String
  content : String
  title : Option String
  term_frequencies : List (Term × Nat)
  term_count : Nat
  metadata : List (String × String)
deriving DecidableEq

/-- Constructor `Document::new`. -/
def Document.new (id content : String) : Document :=
  ⟨id, content, none, [], 0, []⟩

/-- Model of `Document::add_term`'s frequency-map update
(`entry(term).or_insert(0); count.0 += 1`).  The existing key object is
kept, like a Rust `HashMap` entry. -/
def bumpTerm : List (Term × Nat) → Term → List (Term × Nat)
  | [], t => [(t, 1)]
  | (k, v) :: rest, t =>
      if k.text == t.text then (k, v + 1) :: rest else (k, v) :: bumpTerm rest t

/-- Method `Document::add_term`: bump the term's frequency and the total count. -/
def Document.add_term (d : Document) (t : Term) : Document :=
  { d with term_frequencies := bumpTerm d.term_frequencies t,
           term_count := d.term_count + 1 }

/-- Method `Document::term_frequency`: stored count, defaulting to `0`. -/
def Document.term_frequency (d : Document) (t : Term) : Nat :=
  (tlookup t d.term_frequencies).getD 0

/-- Method `Document::normalized_term_frequency`.  The `term_count == 0`
guard and the comparisons are on `usize` values cast to `f64`, which is
exact, so the `Nat` test is equivalent. -/
noncomputable def Document.normalized_term_frequency (d : Document) (t : Term) : ℝ :=
  if d.term_count = 0 then 0
  else (d.term_frequency t : ℝ) / (d.term_count : ℝ)

/-- Distinct terms of a document: the key set of its frequency map
(`document.term_frequencies().keys()`, collected into a `HashSet` in the
source; the keys of a map are already pairwise distinct). -/
def distinctTerms (d : Document) : List Term :=
  d.term_frequencies.map Prod.fst

/-! ### Corpus (`src/domain/corpus.rs`) -/

/-- A corpus (`Corpus` in `corpus.rs`).  `CorpusId` is modelled as the raw
string; `documents` is keyed by document id. -/
structure Corpus where
  id : String
  name : String
  description : Option String
  documents : List (String × Document)
  document_frequencies : List (Term × Nat)
  stopwords : List String
  indexed : Bool
  metadata : List (String × String)
deriving DecidableEq

/-- Constructor `Corpus::new`. -/
def Corpus.new (id name : String) : Corpus :=
  ⟨id, name, none, [], [], [], false, []⟩

/-- Method `Corpus::document_count`. -/
def Corpus.document_count (c : Corpus) : Nat := c.documents.length

/-- Method `Corpus::contains_document`. -/
def Corpus.contains_document (c : Corpus) (document_id : String) : Bool :=
  c.documents.any (fun p => p.1 == document_id)

/-- Method `Corpus::get_document`. -/
def Corpus.get_document (c : Corpus) (document_id : String) : Option Document :=
  slookup document_id c.documents

/-- Method `Corpus::is_indexed`. -/
def Corpus.is_indexed (c : Corpus) : Bool := c.indexed

/-- Method `Corpus::document_frequency`: stored count, defaulting to `0`. -/
def Corpus.document_frequency (c : Corpus) (t : Term) : Nat :=
  (tlookup t c.document_frequencies).getD 0

/-- Error message of the duplicate-id branch of `Corpus::add_document`
(without the quote characters around the id). -/
def addDupMsg (id : String) : String :=
  "Document with ID " ++ id ++ " already exists in corpus"

/-- Error message of the missing-id branch of `Corpus::remove_document`
(without the quote characters around the id). -/
def removeMissingMsg (id : String) : String :=
  "Document with ID " ++ id ++ " not found in corpus"

/-- Method `Corpus::add_document`.  On a duplicate id it fails with
`DomainError::InvalidOperation` before any mutation; otherwise, if the
corpus is indexed, it increments the document frequency of each distinct
term of the new document, then inserts the document. -/
def Corpus.add_document (c : Corpus) (d : Document) : Except DomainError Unit × Corpus :=
  if c.contains_document d.id then
    (.error (.InvalidOperation (addDupMsg d.id)), c)
  else
    let c₁ :=
      if c.indexed then
        { c with document_frequencies := (distinctTerms d).foldl bumpKey c.document_frequencies }
      else c
    (.ok (), { c₁ with documents := c₁.documents ++ [(d.id, d)] })

/-- Method `Corpus::remove_document`.  On a missing id it fails with
`DomainError::NotFound` before any mutation; otherwise it removes the
document and, if the corpus is indexed, decrements (pruning at zero) the
document frequency of each of the removed document's distinct terms.  The
inner `none` branch mirrors the `.unwrap()` in the source and is
unreachable: the `contains_document` guard guarantees the lookup succeeds. -/
def Corpus.remove_document (c : Corpus) (document_id : String) :
    Except DomainError Document × Corpus :=
  if !c.contains_document document_id then
    (.error (.NotFound (removeMissingMsg document_id)), c)
  else
    match slookup document_id c.documents with
    | none => (.error (.NotFound (removeMissingMsg document_id)), c)
    | some document =>
        let c₁ := { c with documents := c.documents.eraseP (fun p => p.1 == document_id) }
        let c₂ :=
          if c₁.indexed then
            { c₁ with document_frequencies :=
                (distinctTerms document).foldl dropKey c₁.document_frequencies }
          else c₁
        (.ok document, c₂)

/-- Method `Corpus::build_index`: clear the document-frequency table,
re-count every document's distinct terms, and set `indexed`. -/
def Corpus.build_index (c : Corpus) : Corpus :=
  { c with
      document_frequencies :=
        c.documents.foldl (fun m p => (distinctTerms p.2).foldl bumpKey m) [],
      indexed := true }

/-- Method `Corpus::inverse_document_frequency`: `0.0` when the corpus has
no documents or the term has zero document frequency, else
`ln(doc_count / doc_freq)`.  The source compares `usize` values cast to
`f64` against `0.0`; the casts are exact, so the `Nat` tests are
equivalent. -/
noncomputable def Corpus.inverse_document_frequency (c : Corpus) (t : Term) : ℝ :=
  if c.document_count = 0 then 0
  else if c.document_frequency t = 0 then 0
  else Real.log ((c.document_count : ℝ) / (c.document_frequency t : ℝ))

/-! ### TF-IDF engine (`src/domain/tf_idf.rs`) -/

/-- Model of `f64::ln` on the nonnegative arguments formed by the engine:
`ln 0 = -inf` (this is observable when the smoothed IDF runs on an empty
corpus).  A negative argument gives IEEE NaN; none of the quotients the
engine forms is negative, and the model maps that unreachable case to `⊥`
as junk. -/
noncomputable def flog (x : ℝ) : EReal :=
  if 0 < x then ((Real.log x : ℝ) : EReal) else ⊥

/-- Model of `f64::sqrt` on the sums of squares formed by the engine.
`sqrt` of `⊥` (a negative value, IEEE NaN) is unreachable — sums of
squares are nonnegative — and maps to junk `0` through `EReal.toReal`. -/
noncomputable def esqrt (x : EReal) : EReal :=
  if x = ⊤ then ⊤ else ((Real.sqrt x.toReal : ℝ) : EReal)

/-- Options for TF-IDF calculation (`TfIdfOptions`).  The two optional
weighting overrides are arbitrary Rust `fn(usize, usize) -> f64` values;
they are modelled as real-valued functions (a non-finite-valued override
is outside every stated property). -/
structure TfIdfOptions where
  apply_smoothing : Bool
  normalize : Bool
  use_log_tf : Bool
  filter_stopwords : Bool
  tf_weighting : Option (Nat → Nat → ℝ)
  idf_weighting : Option (Nat → Nat → ℝ)

/-- The `Default` impl for `TfIdfOptions`: everything on, no overrides. -/
def TfIdfOptions.default : TfIdfOptions :=
  ⟨true, true, true, true, none, none⟩

/-- A TF-IDF score (`TfIdfScore`): term, TF component, IDF component, and
their product.  `tf` is real-valued (every TF path is guarded against
non-finite results); `idf` and `score` are extended reals, since the
smoothed IDF can be `-inf`.  `EReal` multiplication returns `0` for
`0 * ⊥` where IEEE gives NaN; that combination only arises for a zero-TF
term scored against an empty indexed corpus, which no stated property
touches. -/
structure TfIdfScore where
  term : Term
  tf : ℝ
  idf : EReal
  score : EReal

/-- Constructor `TfIdfScore::new`: `score = tf * idf`. -/
noncomputable def TfIdfScore.new (term : Term) (tf : ℝ) (idf : EReal) : TfIdfScore :=
  ⟨term, tf, idf, (tf : EReal) * idf⟩

/-- A document with its aggregate relevance score (`ScoredDocument`). -/
structure ScoredDocument where
  document : Document
  score : EReal
  term_scores : List TfIdfScore

/-- Message of the stopword-filter error in `calculate_term_tfidf`. -/
def stopwordMsg : String := "Term is a stopword"

/-- The `let tf` computation of `TfIdf::calculate_term_tfidf`: custom
override first, else logarithmic TF with a zero guard, else plain
normalized frequency.  The `tf_raw > 0.0` test in the source compares the
`f64` cast of a `usize`, which is exact, so the `Nat` test is
equivalent. -/
noncomputable def tfValue (options : TfIdfOptions) (term : Term) (document : Document) : ℝ :=
  match options.tf_weighting with
  | some tf_fn => tf_fn (document.term_frequency term) document.term_count
  | none =>
      if options.use_log_tf then
        if 0 < document.term_frequency term then
          1 + Real.log (document.term_frequency term : ℝ)
        else 0
      else document.normalized_term_frequency term

/-- The `let idf` computation of `TfIdf::calculate_term_tfidf`: custom
override first, else the unsmoothed helper's value, overwritten by
`ln(doc_count / (doc_freq + 1))` when smoothing is on. -/
noncomputable def idfValue (options : TfIdfOptions) (term : Term) (corpus : Corpus) : EReal :=
  match options.idf_weighting with
  | some idf_fn =>
      ((idf_fn (corpus.document_frequency term) corpus.document_count : ℝ) : EReal)
  | none =>
      if options.apply_smoothing then
        flog ((corpus.document_count : ℝ) / ((corpus.document_frequency term : ℝ) + 1))
      else ((corpus.inverse_document_frequency term : ℝ) : EReal)

/-- Method `TfIdf::calculate_term_tfidf`: fail on an unindexed corpus;
fail with the stopword `InvalidCalculation` error when filtering is on and
the term is a stopword; otherwise package the TF and IDF components (the
two `let` bindings of the source, factored out as `tfValue` and
`idfValue`). -/
noncomputable def calculate_term_tfidf (options : TfIdfOptions) (term : Term)
    (document : Document) (corpus : Corpus) : Except DomainError TfIdfScore :=
  if !corpus.is_indexed then
    .error (.TfIdfErrorCase .CorpusNotIndexed)
  else if options.filter_stopwords && term.is_stopword then
    .error (.TfIdfErrorCase (.InvalidCalculation stopwordMsg))
  else
    .ok (TfIdfScore.new term (tfValue options term document) (idfValue options term corpus))

/-- Method `TfIdf::normalize_scores`: L2 normalization in place; no-op
when the sum of squares is `0`.  Division only happens with a nonzero
factor, so `EReal` division agrees with `f64` division on every reachable
input. -/
noncomputable def normalize_scores (scores : List TfIdfScore) : List TfIdfScore :=
  let sum_of_squares : EReal := (scores.map (fun s => s.score * s.score)).sum
  if sum_of_squares = 0 then scores
  else
    let normalization_factor := esqrt sum_of_squares
    scores.map (fun s => { s with score := s.score / normalization_factor })

/-- Model of `Vec::sort_by` with the descending comparator
`b.score.partial_cmp(&a.score).unwrap_or(Equal)`.  Rust's sort is stable;
insertion sort with a non-strict relation may reorder ties, but the
pre-sort order is an arbitrary `HashMap` iteration order anyway and no
stated property depends on tie order. -/
noncomputable def sortScoresDesc (scores : List TfIdfScore) : List TfIdfScore :=
  scores.insertionSort (fun a b => b.score ≤ a.score)

/-- The per-term loop of `TfIdf::calculate_document_tfidf`: iterate the
document's term entries, skip stopwords when filtering is on, absorb the
stopword `InvalidCalculation` error, and propagate any other error. -/
noncomputable def scoreTermsLoop (options : TfIdfOptions) (document : Document)
    (corpus : Corpus) : List (Term × Nat) → Except DomainError (List TfIdfScore)
  | [] => .ok []
  | (term, _) :: rest =>
      if options.filter_stopwords && term.is_stopword then
        scoreTermsLoop options document corpus rest
      else
        match calculate_term_tfidf options term document corpus with
        | .ok score =>
            (scoreTermsLoop options document corpus rest).map (fun l => score :: l)
        | .error (.TfIdfErrorCase (.InvalidCalculation _)) =>
            scoreTermsLoop options document corpus rest
        | .error e => .error e

/-- Method `TfIdf::calculate_document_tfidf`: require an indexed corpus,
score every non-stopword term, optionally normalize, then sort by score
descending. -/
noncomputable def calculate_document_tfidf (options : TfIdfOptions) (document : Document)
    (corpus : Corpus) : Except DomainError (List TfIdfScore) :=
  if !corpus.is_indexed then
    .error (.TfIdfErrorCase .CorpusNotIndexed)
  else
    match scoreTermsLoop options document corpus document.term_frequencies with
    | .error e => .error e
    | .ok scores =>
        let scores := if options.normalize then normalize_scores scores else scores
        .ok (sortScoresDesc scores)

/-- The per-document inner loop of `TfIdf::search`: accumulate the
aggregate score and per-term scores over the query terms, skipping
stopwords when filtering is on, absorbing the stopword error, and
propagating any other error. -/
noncomputable def searchDocLoop (options : TfIdfOptions) (document : Document)
    (corpus : Corpus) (acc : EReal × List TfIdfScore) :
    List Term → Except DomainError (EReal × List TfIdfScore)
  | [] => .ok acc
  | term :: rest =>
      if options.filter_stopwords && term.is_stopword then
        searchDocLoop options document corpus acc rest
      else
        match calculate_term_tfidf options term document corpus with
        | .ok score =>
            searchDocLoop options document corpus
              (acc.1 + score.score, acc.2 ++ [score]) rest
        | .error (.TfIdfErrorCase (.InvalidCalculation _)) =>
            searchDocLoop options document corpus acc rest
        | .error e => .error e

/-- The outer loop of `TfIdf::search`: per document, run the inner loop
and keep the document exactly when its aggregate score is `> 0.0`. -/
noncomputable def searchLoop (options : TfIdfOptions) (query_terms : List Term)
    (corpus : Corpus) (acc : List ScoredDocument) :
    List (String × Document) → Except DomainError (List ScoredDocument)
  | [] => .ok acc
  | (_, document) :: rest =>
      match searchDocLoop options document corpus (0, []) query_terms with
      | .error e => .error e
      | .ok (doc_score, term_scores) =>
          let acc :=
            if 0 < doc_score then acc ++ [ScoredDocument.mk document doc_score term_scores]
            else acc
          searchLoop options query_terms corpus acc rest

/-- Model of the final `sort_by` of `TfIdf::search` (descending by
aggregate score; same tie-order caveat as `sortScoresDesc`). -/
noncomputable def sortDocsDesc (results : List ScoredDocument) : List ScoredDocument :=
  results.insertionSort (fun a b => b.score ≤ a.score)

/-- Method `TfIdf::search`. -/
noncomputable def search (options : TfIdfOptions) (query_terms : List Term)
    (corpus : Corpus) : Except DomainError (List ScoredDocument) :=
  if !corpus.is_indexed then
    .error (.TfIdfErrorCase .CorpusNotIndexed)
  else
    match searchLoop options query_terms corpus [] corpus.documents with
    | .error e => .error e
    | .ok results => .ok (sortDocsDesc results)

/-- Method `TfIdf::generate_document_vectors`: for every document, the map
from term text to score produced by `calculate_document_tfidf`, keyed by
document id. -/
noncomputable def generate_document_vectors (options : TfIdfOptions) (corpus : Corpus) :
    Except DomainError (List (String × List (String × EReal))) :=
  if !corpus.is_indexed then
    .error (.TfIdfErrorCase .CorpusNotIndexed)
  else
    go corpus.documents []
where
  /-- The document loop, threading the accumulated id-keyed vector map. -/
  go : List (String × Document) → List (String × List (String × EReal)) →
      Except DomainError (List (String × List (String × EReal)))
  | [], acc => .ok acc
  | (_, document) :: rest, acc =>
      match calculate_document_tfidf options document corpus with
      | .error e => .error e
      | .ok scores =>
          let vector := scores.foldl (fun m s => sinsert m s.term.text s.score) []
          go rest (sinsert acc document.id vector)

/-- Method `TfIdf::cosine_similarity`: build all document vectors, look up
both ids (failing with `DocumentNotFound`), and compute
`dot / (sqrt(mag1) * sqrt(mag2))` over the union of the two key sets,
returning exactly `0.0` when the combined magnitude is `0`.  The source
accumulates the three sums in one loop over the union set; the model sums
each separately, which is the same value since addition is commutative
and associative.  Division only happens with a nonzero magnitude. -/
noncomputable def cosine_similarity (options : TfIdfOptions) (doc1_id doc2_id : String)
    (corpus : Corpus) : Except DomainError EReal :=
  match generate_document_vectors options corpus with
  | .error e => .error e
  | .ok vectors =>
      match slookup doc1_id vectors with
      | none => .error (.TfIdfErrorCase (.DocumentNotFound doc1_id))
      | some vec1 =>
          match slookup doc2_id vectors with
          | none => .error (.TfIdfErrorCase (.DocumentNotFound doc2_id))
          | some vec2 =>
              let all_terms := (vec1.map Prod.fst ++ vec2.map Prod.fst).dedup
              let val1 := fun t => ((slookup t vec1).getD 0 : EReal)
              let val2 := fun t => ((slookup t vec2).getD 0 : EReal)
              let dot_product := (all_terms.map (fun t => val1 t * val2 t)).sum
              let magnitude1 := (all_terms.map (fun t => val1 t * val1 t)).sum
              let magnitude2 := (all_terms.map (fun t => val2 t * val2 t)).sum
              let magnitude := esqrt magnitude1 * esqrt magnitude2
              if magnitude = 0 then .ok 0 else .ok (dot_product / magnitude)

/-! ### Specification-side helpers

These definitions are not translations of Rust functions; they are the
vocabulary the claims are stated in (document counts by containment,
well-formedness of the association-list maps). -/

/-- The key texts of a document's term-frequency map. -/
def Document.keyTexts (d : Document) : List String :=
  d.term_frequencies.map (fun p => p.1.text)

/-- A document is well formed when its term-frequency map has pairwise
distinct keys, as a Rust `HashMap` always does. -/
def Document.WF (d : Document) : Prop := d.keyTexts.Nodup

instance (d : Document) : Decidable d.WF := by
  unfold Document.WF; infer_instance

/-- Whether a document's term-frequency map contains a term (compared by
text, like every `Term`-keyed map). -/
def Document.containsTerm (d : Document) (u : Term) : Bool :=
  d.term_frequencies.any (fun p => p.1.text == u.text)

/-- The number of documents in a document list whose term-frequency map
contains the term: the value the document-frequency index is specified to
hold. -/
def dfCount (docs : List (String × Document)) (u : Term) : Nat :=
  (docs.filter (fun p => p.2.containsTerm u)).length

/-! ### Map lemmas -/

theorem tlookup_bumpKey (m : List (Term × Nat)) (t u : Term) :
    tlookup u (bumpKey m t) =
      if t.text = u.text then some ((tlookup u m).getD 0 + 1) else tlookup u m := by
  induction m with
  | nil =>
      by_cases h : t.text = u.text <;> simp [bumpKey, tlookup, h]
  | cons hd rest ih =>
      obtain ⟨k, v⟩ := hd
      by_cases hkt : k.text = t.text
      · by_cases hku : k.text = u.text
        · have htu : t.text = u.text := hkt ▸ hku
          simp [bumpKey, tlookup, hkt, hku, htu]
        · have htu : ¬t.text = u.text := fun h => hku (hkt.trans h)
          simp [bumpKey, tlookup, hkt, hku, htu]
      · by_cases hku : k.text = u.text
        · have htu : ¬t.text = u.text := fun h => hkt (hku.trans h.symm)
          have hut : ¬u.text = t.text := fun h => htu h.symm
          simp [bumpKey, tlookup, hkt, hku, htu, hut]
        · simp [bumpKey, tlookup, hkt, hku, ih]

theorem tlookup_foldl_bumpKey (ts : List Term) (m : List (Term × Nat)) (u : Term)
    (hnd : (ts.map Term.text).Nodup) :
    tlookup u (ts.foldl bumpKey m) =
      if u.text ∈ ts.map Term.text then some ((tlookup u m).getD 0 + 1)
      else tlookup u m := by
  induction ts generalizing m with
  | nil => simp
  | cons t rest ih =>
      simp only [List.map_cons, List.nodup_cons] at hnd
      obtain ⟨hnotin, hndrest⟩ := hnd
      simp only [List.foldl_cons]
      rw [ih (bumpKey m t) hndrest]
      by_cases h : t.text = u.text
      · have hun : u.text ∉ rest.map Term.text := h ▸ hnotin
        simp only [List.map_cons, List.mem_cons]
        rw [if_neg hun, tlookup_bumpKey, if_pos h, if_pos (Or.inl h.symm)]
      · rw [tlookup_bumpKey, if_neg h]
        simp only [List.map_cons, List.mem_cons]
        by_cases hm : u.text ∈ List.map Term.text rest
        · rw [if_pos hm, if_pos (Or.inr hm)]
        · rw [if_neg hm, if_neg (fun hor => hor.elim (fun hh => h hh.symm) hm)]

theorem containsTerm_iff (d : Document) (u : Term) :
    d.containsTerm u = true ↔ u.text ∈ d.keyTexts := by
  simp [Document.containsTerm, Document.keyTexts, List.any_eq_true]

theorem dfCount_cons (p : String × Document) (docs : List (String × Document)) (u : Term) :
    dfCount (p :: docs) u =
      (if p.2.containsTerm u then 1 else 0) + dfCount docs u := by
  unfold dfCount
  rw [List.filter_cons]
  by_cases h : p.2.containsTerm u = true <;> simp [h, Nat.add_comm]

theorem tlookup_buildFold (docs : List (String × Document)) (m : List (Term × Nat)) (u : Term)
    (hwf : ∀ p ∈ docs, Document.WF p.2) :
    tlookup u (docs.foldl (fun m p => (distinctTerms p.2).foldl bumpKey m) m) =
      if dfCount docs u = 0 then tlookup u m
      else some ((tlookup u m).getD 0 + dfCount docs u) := by
  induction docs generalizing m with
  | nil => simp [dfCount]
  | cons p rest ih =>
      have hwfp : Document.WF p.2 := hwf p (List.mem_cons_self _ _)
      have hkeys : (distinctTerms p.2).map Term.text = p.2.keyTexts := by
        simp only [distinctTerms, Document.keyTexts, List.map_map]
        rfl
      have hinner := tlookup_foldl_bumpKey (distinctTerms p.2) m u (by rw [hkeys]; exact hwfp)
      simp only [List.foldl_cons]
      rw [ih _ (fun q hq => hwf q (List.mem_cons_of_mem _ hq)), hinner, dfCount_cons]
      by_cases hc : p.2.containsTerm u = true
      · have hmem : u.text ∈ (distinctTerms p.2).map Term.text := by
          rw [hkeys]; exact (containsTerm_iff p.2 u).1 hc
        by_cases hz : dfCount rest u = 0
        · simp [hc, hmem, hz]
        · simp [hc, hmem, hz]
          omega
      · have hmem : u.text ∉ (distinctTerms p.2).map Term.text := by
          rw [hkeys]
          intro hin
          exact hc ((containsTerm_iff p.2 u).2 hin)
        simp only [Bool.not_eq_true] at hc
        by_cases hz : dfCount rest u = 0 <;> simp [hc, hmem, hz]

theorem document_frequency_build_index (c : Corpus) (u : Term)
    (hwf : ∀ p ∈ c.documents, Document.WF p.2) :
    (c.build_index).document_frequency u = dfCount c.documents u := by
  unfold Corpus.build_index Corpus.document_frequency
  simp only
  rw [tlookup_buildFold c.documents [] u hwf]
  by_cases hz : dfCount c.documents u = 0 <;> simp [tlookup, hz]

/-! ### The three-document scenario corpus from the spec and the source tests -/

/-- Document 1 of the scenario: "this is a test". -/
def scenDoc1 : Document :=
  ((((Document.new "doc1" "this is a test").add_term (Term.new "this")).add_term
      (Term.new "is")).add_term (Term.new "a")).add_term (Term.new "test")

/-- Document 2 of the scenario: "this is another test". -/
def scenDoc2 : Document :=
  ((((Document.new "doc2" "this is another test").add_term (Term.new "this")).add_term
      (Term.new "is")).add_term (Term.new "another")).add_term (Term.new "test")

/-- Document 3 of the scenario: "yet another example". -/
def scenDoc3 : Document :=
  (((Document.new "doc3" "yet another example").add_term (Term.new "yet")).add_term
      (Term.new "another")).add_term (Term.new "example")

/-- The scenario corpus before indexing. -/
def scenPre : Corpus :=
  ((((Corpus.new "test" "Test Corpus").add_document scenDoc1).2.add_document
      scenDoc2).2.add_document scenDoc3).2

/-- The indexed scenario corpus. -/
def scenCorpus : Corpus := scenPre.build_index

example : scenCorpus.document_count = 3 := by decide
example : scenCorpus.document_frequency (Term.new "test") = 2 := by decide
example : scenCorpus.document_frequency (Term.new "another") = 2 := by decide
example : scenCorpus.document_frequency (Term.new "example") = 1 := by decide
example : scenCorpus.document_frequency (Term.new "unknown") = 0 := by decide
example : scenCorpus.is_indexed = true := by decide

theorem tlookup_build_index (c : Corpus) (u : Term)
    (hwf : ∀ p ∈ c.documents, Document.WF p.2) :
    tlookup u (c.build_index).document_frequencies =
      if dfCount c.documents u = 0 then none else some (dfCount c.documents u) := by
  unfold Corpus.build_index
  simp only
  rw [tlookup_buildFold c.documents [] u hwf]
  by_cases hz : dfCount c.documents u = 0 <;> simp [tlookup, hz]

/-- Claim C2 (theorem): immediately after `build_index`, the stored
document frequency of every term equals the number of documents whose
term-frequency map contains the term; and `document_frequency` is a total
function returning `0` for any term with no entry in the index. -/
theorem claim_C2 (c : Corpus) (t : Term)
    (hwf : ∀ p ∈ c.documents, Document.WF p.2) :
    (c.build_index).document_frequency t = dfCount c.documents t ∧
    (∀ c' : Corpus, ∀ u : Term,
      tlookup u c'.document_frequencies = none → c'.document_frequency u = 0) := by
  refine ⟨?_, fun c' u h => by simp [Corpus.document_frequency, h]⟩
  unfold Corpus.document_frequency
  rw [tlookup_build_index c t hwf]
  by_cases hz : dfCount c.documents t = 0 <;> simp [hz]

/-- Claim C2 (witness): the scenario corpus, at the term "test". -/
theorem claim_C2_witness :
    (∀ p ∈ scenPre.documents, Document.WF p.2) ∧
    ((scenPre.build_index).document_frequency (Term.new "test") =
        dfCount scenPre.documents (Term.new "test") ∧
      (∀ c' : Corpus, ∀ u : Term,
        tlookup u c'.document_frequencies = none → c'.document_frequency u = 0)) :=
  ⟨by decide, claim_C2 scenPre (Term.new "test") (by decide)⟩

/-- Claim C10 (theorem): a failing `add_document` or `remove_document`
returns the corpus completely unchanged — the error checks precede every
mutation. -/
theorem claim_C10 (c : Corpus) (d : Document) (did : String)
    (e e' : DomainError) (c₁ c₂ : Corpus) :
    (c.add_document d = (.error e, c₁) → c₁ = c) ∧
    (c.remove_document did = (.error e', c₂) → c₂ = c) := by
  constructor
  · intro h
    unfold Corpus.add_document at h
    split at h
    · exact (congrArg Prod.snd h).symm
    · exact absurd (congrArg Prod.fst h) (by simp)
  · intro h
    unfold Corpus.remove_document at h
    split at h
    · exact (congrArg Prod.snd h).symm
    · split at h
      · exact (congrArg Prod.snd h).symm
      · exact absurd (congrArg Prod.fst h) (by simp)

theorem tlookup_eq_none_of_not_mem (m : List (Term × Nat)) (u : Term)
    (h : u.text ∉ m.map (fun p => p.1.text)) : tlookup u m = none := by
  induction m with
  | nil => rfl
  | cons hd rest ih =>
      obtain ⟨k, v⟩ := hd
      simp only [List.map_cons, List.mem_cons] at h
      push_neg at h
      simp only [tlookup]
      rw [if_neg (by simpa using fun hh : k.text = u.text => h.1 hh.symm)]
      exact ih h.2

theorem tlookup_dropKey (m : List (Term × Nat)) (t u : Term)
    (hnd : (m.map (fun p => p.1.text)).Nodup) :
    tlookup u (dropKey m t) =
      if t.text = u.text then
        (tlookup u m).bind (fun v => if v - 1 = 0 then none else some (v - 1))
      else tlookup u m := by
  induction m with
  | nil =>
      by_cases h : t.text = u.text <;> simp [dropKey, tlookup, h]
  | cons hd rest ih =>
      obtain ⟨k, v⟩ := hd
      simp only [List.map_cons, List.nodup_cons] at hnd
      obtain ⟨hknotin, hndrest⟩ := hnd
      by_cases hkt : k.text = t.text
      · by_cases hku : k.text = u.text
        · have htu : t.text = u.text := hkt ▸ hku
          have hnone : tlookup u rest = none :=
            tlookup_eq_none_of_not_mem rest u (hku ▸ hknotin)
          by_cases hv : v - 1 = 0 <;>
            simp [dropKey, tlookup, hkt, hku, htu, hv, hnone]
        · have htu : ¬t.text = u.text := fun h => hku (hkt.trans h)
          by_cases hv : v - 1 = 0 <;>
            simp [dropKey, tlookup, hkt, hku, htu, hv]
      · by_cases hku : k.text = u.text
        · have htu : ¬t.text = u.text := fun h => hkt (hku.trans h.symm)
          have hut : ¬u.text = t.text := fun h => htu h.symm
          simp [dropKey, tlookup, hkt, hku, htu, hut]
        · simp [dropKey, tlookup, hkt, hku, ih hndrest]

theorem dropKey_keys_sublist (m : List (Term × Nat)) (t : Term) :
    ((dropKey m t).map (fun p => p.1.text)).Sublist (m.map (fun p => p.1.text)) := by
  induction m with
  | nil => simp [dropKey]
  | cons hd rest ih =>
      obtain ⟨k, v⟩ := hd
      by_cases hkt : k.text = t.text
      · by_cases hv : v - 1 = 0 <;> simp [dropKey, hkt, hv]
      · simpa [dropKey, hkt] using ih

theorem dropKey_keys_nodup (m : List (Term × Nat)) (t : Term)
    (hnd : (m.map (fun p => p.1.text)).Nodup) :
    ((dropKey m t).map (fun p => p.1.text)).Nodup :=
  (dropKey_keys_sublist m t).nodup hnd

theorem tlookup_foldl_dropKey (ts : List Term) (m : List (Term × Nat)) (u : Term)
    (hndts : (ts.map Term.text).Nodup)
    (hndm : (m.map (fun p => p.1.text)).Nodup) :
    tlookup u (ts.foldl dropKey m) =
      if u.text ∈ ts.map Term.text then
        (tlookup u m).bind (fun v => if v - 1 = 0 then none else some (v - 1))
      else tlookup u m := by
  induction ts generalizing m with
  | nil => simp
  | cons t rest ih =>
      simp only [List.map_cons, List.nodup_cons] at hndts
      obtain ⟨hnotin, hndrest⟩ := hndts
      simp only [List.foldl_cons]
      rw [ih (dropKey m t) hndrest (dropKey_keys_nodup m t hndm)]
      by_cases h : t.text = u.text
      · have hun : u.text ∉ rest.map Term.text := h ▸ hnotin
        simp only [List.map_cons, List.mem_cons]
        rw [if_neg hun, tlookup_dropKey m t u hndm, if_pos h, if_pos (Or.inl h.symm)]
      · rw [tlookup_dropKey m t u hndm, if_neg h]
        simp only [List.map_cons, List.mem_cons]
        by_cases hm : u.text ∈ List.map Term.text rest
        · rw [if_pos hm, if_pos (Or.inr hm)]
        · rw [if_neg hm, if_neg (fun hor => hor.elim (fun hh => h hh.symm) hm)]

theorem distinctTerms_map_text (d : Document) :
    (distinctTerms d).map Term.text = d.keyTexts := by
  simp only [distinctTerms, Document.keyTexts, List.map_map]
  rfl

/-- A one-document corpus used by several witnesses. -/
def w10c : Corpus := ((Corpus.new "c" "C").add_document (Document.new "d1" "x")).2

/-- Claim C10 (witness): a duplicate add and a missing remove on a
concrete corpus, both leaving it unchanged. -/
theorem claim_C10_witness :
    w10c.add_document (Document.new "d1" "y") =
        (.error (.InvalidOperation (addDupMsg "d1")), w10c) ∧
    w10c.remove_document "zz" = (.error (.NotFound (removeMissingMsg "zz")), w10c) ∧
    w10c = w10c ∧ w10c = w10c :=
  ⟨by rfl, by rfl,
   (claim_C10 w10c (Document.new "d1" "y") "zz"
      (.InvalidOperation (addDupMsg "d1")) (.NotFound (removeMissingMsg "zz"))
      w10c w10c).1 (by rfl),
   (claim_C10 w10c (Document.new "d1" "y") "zz"
      (.InvalidOperation (addDupMsg "d1")) (.NotFound (removeMissingMsg "zz"))
      w10c w10c).2 (by rfl)⟩

theorem slookup_isSome_any {α : Type _} (l : List (String × α)) (k : String) :
    (slookup k l).isSome = l.any (fun p => p.1 == k) := by
  induction l with
  | nil => rfl
  | cons hd rest ih =>
      obtain ⟨k', v⟩ := hd
      by_cases h : k' == k <;> simp [slookup, h, ih]

theorem contains_of_slookup {c : Corpus} {did : String} {doc : Document}
    (h : slookup did c.documents = some doc) : c.contains_document did = true := by
  unfold Corpus.contains_document
  rw [← slookup_isSome_any, h]
  rfl

/-- Claim C8 (theorem, amended): `add_document` fails exactly on a
duplicate id, with `DomainError::InvalidOperation` carrying an
already-exists message (the error enum has no `AlreadyExists` variant),
otherwise inserting the document; `remove_document` fails with
`DomainError::NotFound` exactly when the id is absent, otherwise removing
the document and, only if the corpus is indexed, decrementing each of its
distinct terms' document frequencies and deleting an entry when its count
reaches `0`. -/
theorem claim_C8 (c : Corpus) (d : Document) (did : String) (doc : Document) :
    (c.contains_document d.id = true →
        c.add_document d = (.error (.InvalidOperation (addDupMsg d.id)), c)) ∧
    (c.contains_document d.id = false →
        (c.add_document d).1 = .ok () ∧
        (c.add_document d).2.documents = c.documents ++ [(d.id, d)]) ∧
    (c.contains_document did = false →
        c.remove_document did = (.error (.NotFound (removeMissingMsg did)), c)) ∧
    (slookup did c.documents = some doc →
        (c.remove_document did).1 = .ok doc ∧
        (c.remove_document did).2.documents =
          c.documents.eraseP (fun p => p.1 == did) ∧
        (c.indexed = false →
          (c.remove_document did).2.document_frequencies = c.document_frequencies) ∧
        (c.indexed = true →
          (c.document_frequencies.map (fun p => p.1.text)).Nodup → doc.WF →
          ∀ u : Term,
            tlookup u (c.remove_document did).2.document_frequencies =
              if u.text ∈ doc.keyTexts then
                (tlookup u c.document_frequencies).bind
                  (fun v => if v - 1 = 0 then none else some (v - 1))
              else tlookup u c.document_frequencies)) := by
  refine ⟨?_, ?_, ?_, ?_⟩
  · intro h
    simp [Corpus.add_document, h]
  · intro h
    by_cases hi : c.indexed <;> simp [Corpus.add_document, h, hi]
  · intro h
    simp [Corpus.remove_document, h]
  · intro h
    have hcon : c.contains_document did = true := contains_of_slookup h
    by_cases hi : c.indexed
    · have hrem : c.remove_document did =
          (.ok doc,
            { c with
                documents := c.documents.eraseP (fun p => p.1 == did),
                document_frequencies :=
                  (distinctTerms doc).foldl dropKey c.document_frequencies }) := by
        simp [Corpus.remove_document, hcon, h, hi]
      rw [hrem]
      refine ⟨rfl, rfl, ?_, ?_⟩
      · intro hfalse
        rw [hi] at hfalse
        cases hfalse
      intro _ hnd hwf u
      have hts : ((distinctTerms doc).map Term.text).Nodup := by
        rw [distinctTerms_map_text]; exact hwf
      have := tlookup_foldl_dropKey (distinctTerms doc) c.document_frequencies u hts hnd
      rw [distinctTerms_map_text] at this
      exact this
    · have hi' : c.indexed = false := by simpa using hi
      have hrem : c.remove_document did =
          (.ok doc,
            { c with documents := c.documents.eraseP (fun p => p.1 == did) }) := by
        simp [Corpus.remove_document, hcon, h, hi']
      rw [hrem]
      exact ⟨rfl, rfl, fun _ => rfl, fun htrue => absurd htrue (by simp [hi'])⟩

/-- Claim C8 (counterexample): a concrete duplicate add fails with
`DomainError::InvalidOperation`, not with a dedicated `AlreadyExists`
error kind — `DomainError` (modelled constructor-for-constructor from
`src/domain/mod.rs`) has constructors `NotFound`, `InvalidOperation`,
`TfIdfErrorCase` and `Other` only, so no call can fail with an
`AlreadyExists` variant as the claim states. -/
theorem claim_C8_counterexample :
    (w10c.add_document (Document.new "d1" "y")).1 =
      .error (.InvalidOperation (addDupMsg "d1")) ∧
    DomainError.InvalidOperation (addDupMsg "d1") ≠
      DomainError.NotFound (addDupMsg "d1") ∧
    DomainError.InvalidOperation (addDupMsg "d1") ≠
      DomainError.Other (addDupMsg "d1") :=
  ⟨by rfl, by decide, by decide⟩

/-- Claim C8 (witness): a duplicate add, a fresh add, a missing remove,
and an indexed remove, each on a concrete corpus. -/
theorem claim_C8_witness :
    (w10c.add_document (Document.new "d1" "y") =
        (.error (.InvalidOperation (addDupMsg "d1")), w10c)) ∧
    ((w10c.add_document (Document.new "d2" "y")).1 = .ok () ∧
      (w10c.add_document (Document.new "d2" "y")).2.documents =
        w10c.documents ++ [("d2", Document.new "d2" "y")]) ∧
    (w10c.remove_document "zz" =
        (.error (.NotFound (removeMissingMsg "zz")), w10c)) ∧
    (tlookup (Term.new "this") (scenCorpus.remove_document "doc1").2.document_frequencies =
      if (Term.new "this").text ∈ scenDoc1.keyTexts then
        (tlookup (Term.new "this") scenCorpus.document_frequencies).bind
          (fun v => if v - 1 = 0 then none else some (v - 1))
      else tlookup (Term.new "this") scenCorpus.document_frequencies) :=
  ⟨(claim_C8 w10c (Document.new "d1" "y") "zz" (Document.new "z" "")).1 (by rfl),
   (claim_C8 w10c (Document.new "d2" "y") "zz" (Document.new "z" "")).2.1 (by rfl),
   (claim_C8 w10c (Document.new "d1" "y") "zz" (Document.new "z" "")).2.2.1 (by rfl),
   ((claim_C8 scenCorpus (Document.new "z" "") "doc1" scenDoc1).2.2.2 (by rfl)).2.2.2
     (by rfl) (by decide) (by decide) (Term.new "this")⟩

theorem mem_keys_bumpKey (m : List (Term × Nat)) (t : Term) (s : String) :
    s ∈ (bumpKey m t).map (fun p => p.1.text) ↔
      s ∈ m.map (fun p => p.1.text) ∨ s = t.text := by
  induction m with
  | nil => simp [bumpKey]
  | cons hd rest ih =>
      obtain ⟨k, v⟩ := hd
      by_cases hkt : k.text = t.text
      · rw [show bumpKey ((k, v) :: rest) t = (k, v + 1) :: rest from by
          simp [bumpKey, hkt]]
        simp only [List.map_cons, List.mem_cons]
        constructor
        · exact Or.inl
        · rintro ((h | h) | h)
          · exact Or.inl h
          · exact Or.inr h
          · exact Or.inl (h.trans hkt.symm)
      · rw [show bumpKey ((k, v) :: rest) t = (k, v) :: bumpKey rest t from by
          simp [bumpKey, hkt]]
        simp only [List.map_cons, List.mem_cons, ih]
        tauto

theorem bumpKey_keys_nodup (m : List (Term × Nat)) (t : Term)
    (hnd : (m.map (fun p => p.1.text)).Nodup) :
    ((bumpKey m t).map (fun p => p.1.text)).Nodup := by
  induction m with
  | nil => simp [bumpKey]
  | cons hd rest ih =>
      obtain ⟨k, v⟩ := hd
      simp only [List.map_cons, List.nodup_cons] at hnd
      obtain ⟨hknotin, hndrest⟩ := hnd
      by_cases hkt : k.text = t.text
      · rw [show bumpKey ((k, v) :: rest) t = (k, v + 1) :: rest from by
          simp [bumpKey, hkt]]
        simp only [List.map_cons, List.nodup_cons]
        exact ⟨hknotin, hndrest⟩
      · rw [show bumpKey ((k, v) :: rest) t = (k, v) :: bumpKey rest t from by
          simp [bumpKey, hkt]]
        simp only [List.map_cons, List.nodup_cons]
        refine ⟨?_, ih hndrest⟩
        rw [mem_keys_bumpKey]
        rintro (h | h)
        · exact hknotin h
        · exact hkt h

theorem foldl_bumpKey_keys_nodup (ts : List Term) (m : List (Term × Nat))
    (hnd : (m.map (fun p => p.1.text)).Nodup) :
    ((ts.foldl bumpKey m).map (fun p => p.1.text)).Nodup := by
  induction ts generalizing m with
  | nil => exact hnd
  | cons t rest ih => exact ih _ (bumpKey_keys_nodup m t hnd)

theorem foldl_dropKey_keys_nodup (ts : List Term) (m : List (Term × Nat))
    (hnd : (m.map (fun p => p.1.text)).Nodup) :
    ((ts.foldl dropKey m).map (fun p => p.1.text)).Nodup := by
  induction ts generalizing m with
  | nil => exact hnd
  | cons t rest ih => exact ih _ (dropKey_keys_nodup m t hnd)

theorem buildFold_keys_nodup (docs : List (String × Document)) (m : List (Term × Nat))
    (hnd : (m.map (fun p => p.1.text)).Nodup) :
    ((docs.foldl (fun m p => (distinctTerms p.2).foldl bumpKey m) m).map
      (fun p => p.1.text)).Nodup := by
  induction docs generalizing m with
  | nil => exact hnd
  | cons p rest ih => exact ih _ (foldl_bumpKey_keys_nodup _ m hnd)

theorem dfCount_append (l₁ l₂ : List (String × Document)) (u : Term) :
    dfCount (l₁ ++ l₂) u = dfCount l₁ u + dfCount l₂ u := by
  simp [dfCount, List.filter_append]

theorem dfCount_singleton (p : String × Document) (u : Term) :
    dfCount [p] u = if p.2.containsTerm u then 1 else 0 := by
  by_cases h : p.2.containsTerm u = true <;> simp [dfCount, h]

theorem slookup_eraseP_decomp {α : Type _} (l : List (String × α)) (k : String) (v : α)
    (h : slookup k l = some v) :
    ∃ l₁ l₂, l = l₁ ++ (k, v) :: l₂ ∧ (∀ p ∈ l₁, (p.1 == k) = false) ∧
      l.eraseP (fun p => p.1 == k) = l₁ ++ l₂ := by
  induction l with
  | nil => cases h
  | cons hd rest ih =>
      obtain ⟨k', v'⟩ := hd
      by_cases hk : k' == k
      · have hkeq : k' = k := by simpa using hk
        have hveq : v' = v := by
          simpa [slookup, hk] using h
        refine ⟨[], rest, ?_, by simp, ?_⟩
        · simp [hkeq, hveq]
        · simp [List.eraseP_cons, hk]
      · have h' : slookup k rest = some v := by
          simpa [slookup, hk] using h
        obtain ⟨l₁, l₂, hsplit, hnone, herase⟩ := ih h'
        refine ⟨(k', v') :: l₁, l₂, by simp [hsplit], ?_, ?_⟩
        · intro p hp
          rcases List.mem_cons.1 hp with rfl | hp
          · simpa using hk
          · exact hnone p hp
        · simp [List.eraseP_cons, hk, herase]

/-- The invariant an indexed corpus maintains: the document-frequency map
has pairwise distinct keys, stores exactly the containment counts of the
current document set (with absence meaning zero), and every stored
document has a well-formed term-frequency map. -/
structure CorpusWF (c : Corpus) : Prop where
  dfKeys : (c.document_frequencies.map (fun p => p.1.text)).Nodup
  dfTable : ∀ u : Term, tlookup u c.document_frequencies =
    if dfCount c.documents u = 0 then none else some (dfCount c.documents u)
  docsWF : ∀ p ∈ c.documents, Document.WF p.2

theorem CorpusWF_build_index (c : Corpus)
    (hdocs : ∀ p ∈ c.documents, Document.WF p.2) : CorpusWF c.build_index := by
  refine ⟨?_, ?_, hdocs⟩
  · exact buildFold_keys_nodup c.documents [] (by simp)
  · intro u
    exact tlookup_build_index c u hdocs

theorem CorpusWF_add (c : Corpus) (d : Document) (hwf : CorpusWF c)
    (hdwf : d.WF) (hind : c.indexed = true)
    (hfresh : c.contains_document d.id = false) :
    CorpusWF (c.add_document d).2 ∧ (c.add_document d).2.indexed = true := by
  have hadd : (c.add_document d).2 =
      { c with
          document_frequencies := (distinctTerms d).foldl bumpKey c.document_frequencies,
          documents := c.documents ++ [(d.id, d)] } := by
    simp [Corpus.add_document, hfresh, hind]
  rw [hadd]
  refine ⟨⟨?_, ?_, ?_⟩, hind⟩
  · exact foldl_bumpKey_keys_nodup _ _ hwf.dfKeys
  · intro u
    have hts : ((distinctTerms d).map Term.text).Nodup := by
      rw [distinctTerms_map_text]; exact hdwf
    show tlookup u ((distinctTerms d).foldl bumpKey c.document_frequencies) = _
    rw [tlookup_foldl_bumpKey _ _ u hts, distinctTerms_map_text]
    show _ = if dfCount (c.documents ++ [(d.id, d)]) u = 0 then none
      else some (dfCount (c.documents ++ [(d.id, d)]) u)
    rw [dfCount_append, dfCount_singleton, hwf.dfTable u]
    by_cases hmem : u.text ∈ d.keyTexts
    · have hcont : d.containsTerm u = true := (containsTerm_iff d u).2 hmem
      rw [if_pos hmem, if_pos hcont]
      by_cases hz : dfCount c.documents u = 0 <;> simp [hz]
    · have hcont : ¬d.containsTerm u = true :=
        fun hc => hmem ((containsTerm_iff d u).1 hc)
      rw [if_neg hmem, if_neg hcont]
      simp
  · intro p hp
    rcases List.mem_append.1 hp with hp | hp
    · exact hwf.docsWF p hp
    · rcases List.mem_singleton.1 hp with rfl
      exact hdwf

theorem CorpusWF_remove (c : Corpus) (did : String) (doc : Document) (hwf : CorpusWF c)
    (hind : c.indexed = true) (h : slookup did c.documents = some doc) :
    CorpusWF (c.remove_document did).2 ∧ (c.remove_document did).2.indexed = true ∧
      (c.remove_document did).1 = .ok doc := by
  have hcon := contains_of_slookup h
  have hrem : c.remove_document did =
      (.ok doc,
        { c with
            documents := c.documents.eraseP (fun p => p.1 == did),
            document_frequencies :=
              (distinctTerms doc).foldl dropKey c.document_frequencies }) := by
    simp [Corpus.remove_document, hcon, h, hind]
  obtain ⟨l₁, l₂, hsplit, -, herase⟩ := slookup_eraseP_decomp c.documents did doc h
  have hdocmem : (did, doc) ∈ c.documents := by
    rw [hsplit]; exact List.mem_append_right _ (List.mem_cons_self _ _)
  have hdocWF : doc.WF := hwf.docsWF _ hdocmem
  rw [hrem]
  refine ⟨⟨?_, ?_, ?_⟩, hind, rfl⟩
  · exact foldl_dropKey_keys_nodup _ _ hwf.dfKeys
  · intro u
    have hts : ((distinctTerms doc).map Term.text).Nodup := by
      rw [distinctTerms_map_text]; exact hdocWF
    show tlookup u ((distinctTerms doc).foldl dropKey c.document_frequencies) = _
    rw [tlookup_foldl_dropKey _ _ u hts hwf.dfKeys, distinctTerms_map_text]
    show _ = if dfCount (c.documents.eraseP (fun p => p.1 == did)) u = 0 then none
      else some (dfCount (c.documents.eraseP (fun p => p.1 == did)) u)
    rw [herase, dfCount_append, hwf.dfTable u]
    have hcnt : dfCount c.documents u =
        dfCount l₁ u + ((if doc.containsTerm u then 1 else 0) + dfCount l₂ u) := by
      rw [hsplit, dfCount_append, dfCount_cons]
    rw [hcnt]
    by_cases hmem : u.text ∈ doc.keyTexts
    · have hcont : doc.containsTerm u = true := (containsTerm_iff doc u).2 hmem
      rw [if_pos hmem, if_pos hcont]
      rw [if_neg (by omega :
        ¬dfCount l₁ u + (1 + dfCount l₂ u) = 0)]
      show (if dfCount l₁ u + (1 + dfCount l₂ u) - 1 = 0 then none
        else some (dfCount l₁ u + (1 + dfCount l₂ u) - 1)) = _
      rw [show dfCount l₁ u + (1 + dfCount l₂ u) - 1 = dfCount l₁ u + dfCount l₂ u
        from by omega]
    · have hcont : ¬doc.containsTerm u = true :=
        fun hc => hmem ((containsTerm_iff doc u).1 hc)
      rw [if_neg hmem, if_neg hcont]
      simp
  · intro p hp
    rw [show (List.eraseP (fun p => p.1 == did) c.documents) = l₁ ++ l₂ from herase] at hp
    apply hwf.docsWF
    rw [hsplit]
    rcases List.mem_append.1 hp with hp | hp
    · exact List.mem_append_left _ hp
    · exact List.mem_append_right _ (List.mem_cons_of_mem _ hp)

/-- A mutation of the document set: one `add_document` or one
`remove_document` call. -/
inductive CorpusOp where
  | add : Document → CorpusOp
  | remove : String → CorpusOp

/-- Well-formedness of an operation: an added document must have a
well-formed term-frequency map (as every Rust-built document does). -/
def CorpusOp.WF : CorpusOp → Prop
  | .add d => Document.WF d
  | .remove _ => True

instance : (op : CorpusOp) → Decidable op.WF
  | .add d => inferInstanceAs (Decidable d.WF)
  | .remove _ => .isTrue trivial

/-- Run one corpus mutation, keeping the new state on success and the
error on failure (on failure the state is unchanged, see `claim_C10`). -/
def applyOp (c : Corpus) : CorpusOp → Except DomainError Corpus
  | .add d =>
      match c.add_document d with
      | (.ok _, c') => .ok c'
      | (.error e, _) => .error e
  | .remove did =>
      match c.remove_document did with
      | (.ok _, c') => .ok c'
      | (.error e, _) => .error e

/-- Run a sequence of corpus mutations, stopping at the first failure. -/
def applyOps (c : Corpus) : List CorpusOp → Except DomainError Corpus
  | [] => .ok c
  | op :: rest =>
      match applyOp c op with
      | .error e => .error e
      | .ok c' => applyOps c' rest

theorem applyOp_WF (c : Corpus) (op : CorpusOp) (c' : Corpus) (hwf : CorpusWF c)
    (hind : c.indexed = true) (hop : op.WF) (h : applyOp c op = .ok c') :
    CorpusWF c' ∧ c'.indexed = true := by
  cases op with
  | add d =>
      by_cases hfresh : c.contains_document d.id = true
      · rw [show applyOp c (.add d) = .error (.InvalidOperation (addDupMsg d.id)) from by
          simp [applyOp, Corpus.add_document, hfresh]] at h
        cases h
      · have hfresh' : c.contains_document d.id = false := by simpa using hfresh
        obtain ⟨hwf', hind'⟩ := CorpusWF_add c d hwf hop hind hfresh'
        rcases hpair : c.add_document d with ⟨r, cnew⟩
        have hr : r = .ok () := by
          have h1 : (c.add_document d).1 = .ok () := by
            simp [Corpus.add_document, hfresh']
          rw [hpair] at h1
          exact h1
        subst hr
        simp only [applyOp, hpair] at h
        have hcc : cnew = c' := by simpa using h
        have h2 : (c.add_document d).2 = cnew := congrArg Prod.snd hpair
        rw [h2, hcc] at hwf' hind'
        exact ⟨hwf', hind'⟩
  | remove did =>
      cases hs : slookup did c.documents with
      | none =>
          have hcon : c.contains_document did = false := by
            have hiso := slookup_isSome_any c.documents did
            rw [hs] at hiso
            unfold Corpus.contains_document
            exact hiso.symm
          rw [show applyOp c (.remove did) = .error (.NotFound (removeMissingMsg did)) from by
            simp [applyOp, Corpus.remove_document, hcon]] at h
          cases h
      | some doc =>
          obtain ⟨hwf', hind', hok⟩ := CorpusWF_remove c did doc hwf hind hs
          rcases hpair : c.remove_document did with ⟨r, cnew⟩
          have hr : r = .ok doc := by
            rw [hpair] at hok
            exact hok
          subst hr
          simp only [applyOp, hpair] at h
          have hcc : cnew = c' := by simpa using h
          have h2 : (c.remove_document did).2 = cnew := congrArg Prod.snd hpair
          rw [h2, hcc] at hwf' hind'
          exact ⟨hwf', hind'⟩

theorem applyOps_WF (ops : List CorpusOp) : ∀ c c' : Corpus, CorpusWF c →
    c.indexed = true → (∀ op ∈ ops, op.WF) → applyOps c ops = .ok c' →
    CorpusWF c' ∧ c'.indexed = true := by
  induction ops with
  | nil =>
      intro c c' hwf hind _ h
      have hcc : c = c' := by simpa [applyOps] using h
      exact hcc ▸ ⟨hwf, hind⟩
  | cons op rest ih =>
      intro c c' hwf hind hops h
      cases happly : applyOp c op with
      | error e =>
          rw [show applyOps c (op :: rest) = .error e from by
            simp [applyOps, happly]] at h
          cases h
      | ok c₁ =>
          have h' : applyOps c₁ rest = .ok c' := by
            rw [show applyOps c (op :: rest) = applyOps c₁ rest from by
              simp [applyOps, happly]] at h
            exact h
          obtain ⟨hwf₁, hind₁⟩ :=
            applyOp_WF c op c₁ hwf hind (hops op (List.mem_cons_self _ _)) happly
          exact ih c₁ c' hwf₁ hind₁ (fun o ho => hops o (List.mem_cons_of_mem _ ho)) h'

/-- Claim C1 (theorem): starting from a well-formed indexed corpus, any
sequence of successful `add_document`/`remove_document` calls leaves a
document-frequency table extensionally identical to the one `build_index`
would compute from the resulting document set. -/
theorem claim_C1 (c c' : Corpus) (ops : List CorpusOp)
    (hwf : CorpusWF c) (hind : c.indexed = true)
    (hops : ∀ op ∈ ops, op.WF) (happly : applyOps c ops = .ok c') (u : Term) :
    tlookup u c'.document_frequencies =
      tlookup u (c'.build_index).document_frequencies := by
  obtain ⟨hwf', -⟩ := applyOps_WF ops c c' hwf hind hops happly
  rw [hwf'.dfTable u, tlookup_build_index c' u hwf'.docsWF]

/-- A fresh document used by the C1 witness. -/
def wDoc : Document :=
  ((Document.new "d9" "fresh doc").add_term (Term.new "fresh")).add_term
    (Term.new "another")

/-- The C1 witness operation sequence: one remove, one add. -/
def wOps : List CorpusOp := [CorpusOp.remove "doc2", CorpusOp.add wDoc]

/-- The corpus resulting from the C1 witness operations. -/
def wC1c' : Corpus := ((scenCorpus.remove_document "doc2").2.add_document wDoc).2

/-- Claim C1 (witness): removing doc2 from the indexed scenario corpus and
adding a fresh two-term document, then comparing the incremental table with
a full rebuild at the term "another". -/
theorem claim_C1_witness :
    scenCorpus.indexed = true ∧ (∀ op ∈ wOps, op.WF) ∧
    applyOps scenCorpus wOps = .ok wC1c' ∧
    tlookup (Term.new "another") wC1c'.document_frequencies =
      tlookup (Term.new "another") (wC1c'.build_index).document_frequencies :=
  ⟨rfl, by decide, by rfl,
   claim_C1 scenCorpus wC1c' wOps (CorpusWF_build_index scenPre (by decide)) rfl
     (by decide) (by rfl) (Term.new "another")⟩

/-! ### Scoring-layer lemmas -/

/-- Whether an `Except` value is a success. -/
def exceptIsOk {ε α : Type _} : Except ε α → Bool
  | .ok _ => true
  | .error _ => false

theorem calculate_term_tfidf_ok (options : TfIdfOptions) (t : Term) (d : Document)
    (c : Corpus) (hind : c.is_indexed = true)
    (hns : (options.filter_stopwords && t.is_stopword) = false) :
    calculate_term_tfidf options t d c =
      .ok (TfIdfScore.new t (tfValue options t d) (idfValue options t c)) := by
  simp [calculate_term_tfidf, hind, hns]

theorem scoreTermsLoop_ok (options : TfIdfOptions) (d : Document) (c : Corpus)
    (hind : c.is_indexed = true) :
    ∀ l : List (Term × Nat), ∃ scores, scoreTermsLoop options d c l = .ok scores := by
  intro l
  induction l with
  | nil => exact ⟨[], rfl⟩
  | cons hd rest ih =>
      obtain ⟨scores, hs⟩ := ih
      obtain ⟨term, cnt⟩ := hd
      by_cases hf : (options.filter_stopwords && term.is_stopword) = true
      · exact ⟨scores, by simp [scoreTermsLoop, hf, hs]⟩
      · have hf' : (options.filter_stopwords && term.is_stopword) = false := by
          simpa using hf
        refine ⟨TfIdfScore.new term (tfValue options term d) (idfValue options term c)
          :: scores, ?_⟩
        simp [scoreTermsLoop, hf', calculate_term_tfidf_ok options term d c hind hf', hs,
          Except.map]

theorem calculate_document_tfidf_ok (options : TfIdfOptions) (d : Document) (c : Corpus)
    (hind : c.is_indexed = true) :
    ∃ scores, calculate_document_tfidf options d c = .ok scores := by
  obtain ⟨scores, hs⟩ := scoreTermsLoop_ok options d c hind d.term_frequencies
  refine ⟨sortScoresDesc (if options.normalize then normalize_scores scores else scores), ?_⟩
  simp [calculate_document_tfidf, hind, hs]

theorem searchDocLoop_ok (options : TfIdfOptions) (d : Document) (c : Corpus)
    (hind : c.is_indexed = true) :
    ∀ (q : List Term) (acc : EReal × List TfIdfScore),
      ∃ res, searchDocLoop options d c acc q = .ok res := by
  intro q
  induction q with
  | nil => exact fun acc => ⟨acc, rfl⟩
  | cons t rest ih =>
      intro acc
      by_cases hf : (options.filter_stopwords && t.is_stopword) = true
      · obtain ⟨res, hr⟩ := ih acc
        exact ⟨res, by simp [searchDocLoop, hf, hr]⟩
      · have hf' : (options.filter_stopwords && t.is_stopword) = false := by simpa using hf
        obtain ⟨res, hr⟩ := ih
          (acc.1 + (TfIdfScore.new t (tfValue options t d) (idfValue options t c)).score,
           acc.2 ++ [TfIdfScore.new t (tfValue options t d) (idfValue options t c)])
        exact ⟨res,
          by simp [searchDocLoop, hf', calculate_term_tfidf_ok options t d c hind hf', hr]⟩

theorem searchLoop_ok (options : TfIdfOptions) (q : List Term) (c : Corpus)
    (hind : c.is_indexed = true) :
    ∀ (docs : List (String × Document)) (acc : List ScoredDocument),
      ∃ res, searchLoop options q c acc docs = .ok res := by
  intro docs
  induction docs with
  | nil => exact fun acc => ⟨acc, rfl⟩
  | cons p rest ih =>
      intro acc
      obtain ⟨did, d⟩ := p
      obtain ⟨pr, hpr⟩ := searchDocLoop_ok options d c hind q (0, [])
      obtain ⟨ds, ts⟩ := pr
      obtain ⟨res, hr⟩ := ih (if 0 < ds then acc ++ [ScoredDocument.mk d ds ts] else acc)
      exact ⟨res, by simp [searchLoop, hpr, hr]⟩

theorem search_ok (options : TfIdfOptions) (q : List Term) (c : Corpus)
    (hind : c.is_indexed = true) :
    ∃ res, search options q c = .ok res := by
  obtain ⟨res, hr⟩ := searchLoop_ok options q c hind c.documents []
  exact ⟨sortDocsDesc res, by simp [search, hind, hr]⟩

/-- Claim C7 (theorem): `score_term` fails with `CorpusNotIndexed` on every
unindexed corpus and with the distinct stopword `InvalidCalculation` error
when filtering is on and the term is a stopword; the batch operations also
fail with `CorpusNotIndexed` when unindexed, but on an indexed corpus they
absorb the stopword condition and always succeed (no other error can
escape the loop). -/
theorem claim_C7 (options : TfIdfOptions) (t : Term) (d : Document) (c : Corpus)
    (q : List Term) :
    (c.is_indexed = false →
        calculate_term_tfidf options t d c = .error (.TfIdfErrorCase .CorpusNotIndexed) ∧
        calculate_document_tfidf options d c = .error (.TfIdfErrorCase .CorpusNotIndexed) ∧
        search options q c = .error (.TfIdfErrorCase .CorpusNotIndexed)) ∧
    (c.is_indexed = true → options.filter_stopwords = true → t.is_stopword = true →
        calculate_term_tfidf options t d c =
          .error (.TfIdfErrorCase (.InvalidCalculation stopwordMsg))) ∧
    (TfIdfError.CorpusNotIndexed ≠ TfIdfError.InvalidCalculation stopwordMsg) ∧
    (c.is_indexed = true →
        exceptIsOk (calculate_document_tfidf options d c) = true ∧
        exceptIsOk (search options q c) = true) := by
  refine ⟨?_, ?_, by decide, ?_⟩
  · intro h
    refine ⟨?_, ?_, ?_⟩ <;>
      simp [calculate_term_tfidf, calculate_document_tfidf, search, h]
  · intro h1 h2 h3
    simp [calculate_term_tfidf, h1, h2, h3]
  · intro h
    obtain ⟨s1, hs1⟩ := calculate_document_tfidf_ok options d c h
    obtain ⟨s2, hs2⟩ := search_ok options q c h
    rw [hs1, hs2]
    exact ⟨rfl, rfl⟩

/-- Claim C7 (witness): the unindexed scenario corpus, a stopword term on
the indexed one, and the two batch operations succeeding on it. -/
theorem claim_C7_witness :
    scenPre.is_indexed = false ∧ scenCorpus.is_indexed = true ∧
    calculate_term_tfidf TfIdfOptions.default (Term.new "x") scenDoc1 scenPre =
      .error (.TfIdfErrorCase .CorpusNotIndexed) ∧
    calculate_term_tfidf TfIdfOptions.default (Term.stopword "the") scenDoc1 scenCorpus =
      .error (.TfIdfErrorCase (.InvalidCalculation stopwordMsg)) ∧
    exceptIsOk (calculate_document_tfidf TfIdfOptions.default scenDoc1 scenCorpus) = true ∧
    exceptIsOk (search TfIdfOptions.default [Term.new "test"] scenCorpus) = true :=
  ⟨by decide, by decide,
   ((claim_C7 TfIdfOptions.default (Term.new "x") scenDoc1 scenPre
      [Term.new "test"]).1 (by decide)).1,
   (claim_C7 TfIdfOptions.default (Term.stopword "the") scenDoc1 scenCorpus
      [Term.new "test"]).2.1 rfl rfl rfl,
   ((claim_C7 TfIdfOptions.default (Term.new "x") scenDoc1 scenCorpus
      [Term.new "test"]).2.2.2 (by decide)).1,
   ((claim_C7 TfIdfOptions.default (Term.new "x") scenDoc1 scenCorpus
      [Term.new "test"]).2.2.2 (by decide)).2⟩

/-- Claim C3 (theorem): with smoothing on and no IDF override, the IDF
component of `score_term` on an indexed corpus is the `f64` value of
`ln(doc_count / (doc_freq + 1))` (a real logarithm whenever the corpus is
nonempty); in the three-document scenario, `document_frequency "test" = 2`,
`IDF("test") = ln(3/3) = 0` exactly, and the score of "test" in doc1 is
exactly `0` for every TF configuration. -/
theorem claim_C3 (options : TfIdfOptions) (t : Term) (d : Document) (c : Corpus)
    (hind : c.is_indexed = true) (hsm : options.apply_smoothing = true)
    (hov : options.idf_weighting = none)
    (hns : (options.filter_stopwords && t.is_stopword) = false) :
    (calculate_term_tfidf options t d c).map TfIdfScore.idf =
      .ok (flog ((c.document_count : ℝ) / ((c.document_frequency t : ℝ) + 1))) ∧
    (0 < c.document_count →
      (calculate_term_tfidf options t d c).map TfIdfScore.idf =
        .ok (((Real.log ((c.document_count : ℝ) / ((c.document_frequency t : ℝ) + 1)) : ℝ)
          : EReal))) ∧
    scenCorpus.document_frequency (Term.new "test") = 2 ∧
    scenCorpus.document_count = 3 ∧
    (calculate_term_tfidf options (Term.new "test") scenDoc1 scenCorpus).map
      TfIdfScore.idf = .ok 0 ∧
    (calculate_term_tfidf options (Term.new "test") scenDoc1 scenCorpus).map
      TfIdfScore.score = .ok 0 := by
  have hidf : ∀ c' : Corpus, idfValue options t c' =
      flog ((c'.document_count : ℝ) / ((c'.document_frequency t : ℝ) + 1)) := by
    intro c'
    simp [idfValue, hov, hsm]
  have hmain : (calculate_term_tfidf options t d c).map TfIdfScore.idf =
      .ok (flog ((c.document_count : ℝ) / ((c.document_frequency t : ℝ) + 1))) := by
    rw [calculate_term_tfidf_ok options t d c hind hns]
    simp [Except.map, TfIdfScore.new, hidf]
  have hnstest : (options.filter_stopwords && (Term.new "test").is_stopword) = false := by
    simp [Term.new]
  have hokscen := calculate_term_tfidf_ok options (Term.new "test") scenDoc1 scenCorpus
    rfl hnstest
  have hdf2 : scenCorpus.document_frequency (Term.new "test") = 2 := by decide
  have hdc3 : scenCorpus.document_count = 3 := by decide
  have hidfscen : idfValue options (Term.new "test") scenCorpus = 0 := by
    rw [idfValue]
    rw [hov]
    rw [if_pos hsm, hdf2, hdc3]
    have harg : ((3 : ℕ) : ℝ) / (((2 : ℕ) : ℝ) + 1) = 1 := by norm_num
    rw [harg]
    simp [flog]
  refine ⟨hmain, ?_, hdf2, hdc3, ?_, ?_⟩
  · intro hpos
    rw [hmain]
    have harg : 0 < (c.document_count : ℝ) / ((c.document_frequency t : ℝ) + 1) := by
      apply div_pos
      · exact_mod_cast hpos
      · positivity
    simp [flog, harg]
  · rw [hokscen]
    simp [Except.map, TfIdfScore.new, hidfscen]
  · rw [hokscen]
    simp [Except.map, TfIdfScore.new, hidfscen]

/-- Claim C3 (witness): the default options on the scenario corpus. -/
theorem claim_C3_witness :
    scenCorpus.is_indexed = true ∧ 0 < scenCorpus.document_count ∧
    ((calculate_term_tfidf TfIdfOptions.default (Term.new "test") scenDoc1
        scenCorpus).map TfIdfScore.idf = .ok 0 ∧
      (calculate_term_tfidf TfIdfOptions.default (Term.new "test") scenDoc1
        scenCorpus).map TfIdfScore.score = .ok 0) :=
  ⟨rfl, by decide,
   (claim_C3 TfIdfOptions.default (Term.new "test") scenDoc1 scenCorpus
      rfl rfl rfl (by rfl)).2.2.2.2.1,
   (claim_C3 TfIdfOptions.default (Term.new "test") scenDoc1 scenCorpus
      rfl rfl rfl (by rfl)).2.2.2.2.2⟩

/-- An empty indexed corpus: `build_index` on a fresh corpus. -/
def emptyIndexed : Corpus := (Corpus.new "e" "Empty").build_index

/-- Claim C4 (theorem, amended): on a corpus with zero documents the
unsmoothed `inverse_document_frequency` helper returns exactly `0.0`, but
the engine's smoothed IDF (smoothing on, no override) is `ln 0 = -inf`,
not `0.0`. -/
theorem claim_C4 (c : Corpus) (t : Term) (options : TfIdfOptions) (d : Document)
    (hzero : c.document_count = 0) (hind : c.is_indexed = true)
    (hsm : options.apply_smoothing = true) (hov : options.idf_weighting = none)
    (hns : (options.filter_stopwords && t.is_stopword) = false) :
    c.inverse_document_frequency t = 0 ∧
    (calculate_term_tfidf options t d c).map TfIdfScore.idf = .ok ⊥ := by
  constructor
  · simp [Corpus.inverse_document_frequency, hzero]
  · rw [calculate_term_tfidf_ok options t d c hind hns]
    have hidf : idfValue options t c = ⊥ := by
      rw [idfValue, hov, if_pos hsm, hzero]
      norm_num [flog]
    simp [Except.map, TfIdfScore.new, hidf]

/-- Claim C4 (counterexample): on the empty indexed corpus the smoothed
IDF of any term is `-inf` (here `⊥`), which is not `0.0` — refuting the
claim that the smoothed IDF is `0.0` whenever `document_count() == 0`. -/
theorem claim_C4_counterexample :
    emptyIndexed.document_count = 0 ∧ emptyIndexed.is_indexed = true ∧
    (calculate_term_tfidf TfIdfOptions.default (Term.new "x") (Document.new "d" "")
        emptyIndexed).map TfIdfScore.idf = .ok ⊥ ∧
    (⊥ : EReal) ≠ 0 := by
  refine ⟨rfl, rfl, ?_, EReal.bot_ne_zero⟩
  rw [calculate_term_tfidf_ok TfIdfOptions.default (Term.new "x") (Document.new "d" "")
    emptyIndexed rfl (by rfl)]
  have hidf : idfValue TfIdfOptions.default (Term.new "x") emptyIndexed = ⊥ := by
    rw [idfValue]
    norm_num [TfIdfOptions.default, flog, Corpus.document_count, emptyIndexed,
      Corpus.build_index, Corpus.new]
  simp [Except.map, TfIdfScore.new, hidf]

/-- Claim C4 (witness for the amended theorem): the empty indexed corpus. -/
theorem claim_C4_witness :
    emptyIndexed.document_count = 0 ∧ emptyIndexed.is_indexed = true ∧
    (emptyIndexed.inverse_document_frequency (Term.new "x") = 0 ∧
      (calculate_term_tfidf TfIdfOptions.default (Term.new "x") (Document.new "d" "")
          emptyIndexed).map TfIdfScore.idf = .ok ⊥) :=
  ⟨rfl, rfl,
   claim_C4 emptyIndexed (Term.new "x") TfIdfOptions.default (Document.new "d" "")
     rfl rfl rfl rfl (by rfl)⟩

/-- Claim C6 (theorem): the TF component of `score_term` is the custom
override applied to `(raw_count, total_terms)` when present (priority over
both built-ins); otherwise with `use_log_tf` on it is `1 + ln raw_count`
for a positive count and exactly `0` for a zero count; otherwise it is the
guarded relative frequency `raw_count / total_terms` of
`normalized_term_frequency`. -/
theorem claim_C6 (options : TfIdfOptions) (t : Term) (d : Document) (c : Corpus)
    (hind : c.is_indexed = true)
    (hns : (options.filter_stopwords && t.is_stopword) = false) :
    (∀ f, options.tf_weighting = some f →
      (calculate_term_tfidf options t d c).map TfIdfScore.tf =
        .ok (f (d.term_frequency t) d.term_count)) ∧
    (options.tf_weighting = none → options.use_log_tf = true →
      (0 < d.term_frequency t →
        (calculate_term_tfidf options t d c).map TfIdfScore.tf =
          .ok (1 + Real.log (d.term_frequency t : ℝ))) ∧
      (d.term_frequency t = 0 →
        (calculate_term_tfidf options t d c).map TfIdfScore.tf = .ok 0)) ∧
    (options.tf_weighting = none → options.use_log_tf = false →
      (calculate_term_tfidf options t d c).map TfIdfScore.tf =
        .ok (d.normalized_term_frequency t) ∧
      (d.term_count ≠ 0 →
        (calculate_term_tfidf options t d c).map TfIdfScore.tf =
          .ok ((d.term_frequency t : ℝ) / (d.term_count : ℝ)))) := by
  rw [calculate_term_tfidf_ok options t d c hind hns]
  refine ⟨?_, ?_, ?_⟩
  · intro f hf
    simp [Except.map, TfIdfScore.new, tfValue, hf]
  · intro hnone hlog
    constructor
    · intro hpos
      simp [Except.map, TfIdfScore.new, tfValue, hnone, hlog, hpos]
    · intro hz
      simp [Except.map, TfIdfScore.new, tfValue, hnone, hlog, hz]
  · intro hnone hlog
    constructor
    · simp [Except.map, TfIdfScore.new, tfValue, hnone, hlog]
    · intro hcnt
      simp [Except.map, TfIdfScore.new, tfValue, hnone, hlog,
        Document.normalized_term_frequency, hcnt]

/-- Options with the custom TF override used by the C6 witness. -/
noncomputable def optsCustomTf : TfIdfOptions :=
  { TfIdfOptions.default with tf_weighting := some (fun raw total => (raw : ℝ) + (total : ℝ)) }

/-- Options with plain relative-frequency TF used by the C6 witness. -/
def optsNoLog : TfIdfOptions := { TfIdfOptions.default with use_log_tf := false }

/-- Claim C6 (witness): all three TF configurations on the scenario corpus. -/
theorem claim_C6_witness :
    ((calculate_term_tfidf optsCustomTf (Term.new "test") scenDoc1 scenCorpus).map
        TfIdfScore.tf =
      .ok ((scenDoc1.term_frequency (Term.new "test") : ℝ) + (scenDoc1.term_count : ℝ))) ∧
    ((calculate_term_tfidf TfIdfOptions.default (Term.new "test") scenDoc1 scenCorpus).map
        TfIdfScore.tf =
      .ok (1 + Real.log (scenDoc1.term_frequency (Term.new "test") : ℝ))) ∧
    ((calculate_term_tfidf TfIdfOptions.default (Term.new "zzz") scenDoc1 scenCorpus).map
        TfIdfScore.tf = .ok 0) ∧
    ((calculate_term_tfidf optsNoLog (Term.new "test") scenDoc1 scenCorpus).map
        TfIdfScore.tf = .ok (scenDoc1.normalized_term_frequency (Term.new "test"))) :=
  ⟨(claim_C6 optsCustomTf (Term.new "test") scenDoc1 scenCorpus rfl (by rfl)).1
      (fun raw total => (raw : ℝ) + (total : ℝ)) rfl,
   ((claim_C6 TfIdfOptions.default (Term.new "test") scenDoc1 scenCorpus rfl
      (by rfl)).2.1 rfl rfl).1 (by decide),
   ((claim_C6 TfIdfOptions.default (Term.new "zzz") scenDoc1 scenCorpus rfl
      (by rfl)).2.1 rfl rfl).2 (by decide),
   ((claim_C6 optsNoLog (Term.new "test") scenDoc1 scenCorpus rfl
      (by rfl)).2.2 rfl rfl).1⟩

/-! ### Search characterization (claim C5) -/

/-- The query terms that survive the stopword filter. -/
def keptTerms (options : TfIdfOptions) (q : List Term) : List Term :=
  q.filter (fun t => !(options.filter_stopwords && t.is_stopword))

/-- The per-term scores `search` accumulates for one document. -/
noncomputable def queryScores (options : TfIdfOptions) (q : List Term) (d : Document)
    (c : Corpus) : List TfIdfScore :=
  (keptTerms options q).map (fun t => TfIdfScore.new t (tfValue options t d) (idfValue options t c))

/-- The aggregate score of one document for a query: the sum of
`score_term` over the non-stopword query terms. -/
noncomputable def aggScore (options : TfIdfOptions) (q : List Term) (d : Document)
    (c : Corpus) : EReal :=
  ((queryScores options q d c).map TfIdfScore.score).sum

theorem keptTerms_cons (options : TfIdfOptions) (t : Term) (rest : List Term) :
    keptTerms options (t :: rest) =
      if (options.filter_stopwords && t.is_stopword) = true then keptTerms options rest
      else t :: keptTerms options rest := by
  by_cases h : (options.filter_stopwords && t.is_stopword) = true
  · have hp : (!(options.filter_stopwords && t.is_stopword)) = false := by rw [h]; rfl
    rw [if_pos h]
    unfold keptTerms
    exact List.filter_cons_of_neg (by simp [hp])
  · have h' : (options.filter_stopwords && t.is_stopword) = false := by simpa using h
    have hp : (!(options.filter_stopwords && t.is_stopword)) = true := by rw [h']; rfl
    rw [if_neg h]
    unfold keptTerms
    exact List.filter_cons_of_pos hp

theorem aggScore_cons_skip {options : TfIdfOptions} {t : Term} (rest : List Term)
    (d : Document) (c : Corpus)
    (h : (options.filter_stopwords && t.is_stopword) = true) :
    aggScore options (t :: rest) d c = aggScore options rest d c := by
  unfold aggScore queryScores
  rw [keptTerms_cons, if_pos h]

theorem queryScores_cons_skip {options : TfIdfOptions} {t : Term} (rest : List Term)
    (d : Document) (c : Corpus)
    (h : (options.filter_stopwords && t.is_stopword) = true) :
    queryScores options (t :: rest) d c = queryScores options rest d c := by
  unfold queryScores
  rw [keptTerms_cons, if_pos h]

theorem aggScore_cons_keep {options : TfIdfOptions} {t : Term} (rest : List Term)
    (d : Document) (c : Corpus)
    (h : (options.filter_stopwords && t.is_stopword) = false) :
    aggScore options (t :: rest) d c =
      (TfIdfScore.new t (tfValue options t d) (idfValue options t c)).score +
        aggScore options rest d c := by
  unfold aggScore queryScores
  rw [keptTerms_cons, if_neg (by simp [h])]
  simp

theorem queryScores_cons_keep {options : TfIdfOptions} {t : Term} (rest : List Term)
    (d : Document) (c : Corpus)
    (h : (options.filter_stopwords && t.is_stopword) = false) :
    queryScores options (t :: rest) d c =
      TfIdfScore.new t (tfValue options t d) (idfValue options t c) ::
        queryScores options rest d c := by
  unfold queryScores
  rw [keptTerms_cons, if_neg (by simp [h])]
  rfl

theorem searchDocLoop_eq (options : TfIdfOptions) (d : Document) (c : Corpus)
    (hind : c.is_indexed = true) :
    ∀ (q : List Term) (acc : EReal × List TfIdfScore),
      searchDocLoop options d c acc q =
        .ok (acc.1 + aggScore options q d c, acc.2 ++ queryScores options q d c) := by
  intro q
  induction q with
  | nil =>
      intro acc
      simp [searchDocLoop, aggScore, queryScores, keptTerms]
  | cons t rest ih =>
      intro acc
      by_cases hf : (options.filter_stopwords && t.is_stopword) = true
      · rw [show searchDocLoop options d c acc (t :: rest) =
            searchDocLoop options d c acc rest from by simp [searchDocLoop, hf]]
        rw [ih, aggScore_cons_skip rest d c hf, queryScores_cons_skip rest d c hf]
      · have hf' : (options.filter_stopwords && t.is_stopword) = false := by simpa using hf
        rw [show searchDocLoop options d c acc (t :: rest) =
            searchDocLoop options d c
              (acc.1 + (TfIdfScore.new t (tfValue options t d) (idfValue options t c)).score,
               acc.2 ++ [TfIdfScore.new t (tfValue options t d) (idfValue options t c)]) rest
            from by
          simp [searchDocLoop, hf', calculate_term_tfidf_ok options t d c hind hf']]
        rw [ih, aggScore_cons_keep rest d c hf', queryScores_cons_keep rest d c hf']
        simp [add_assoc]

/-- The documents `search` keeps, in corpus order: those whose aggregate
score is strictly positive, wrapped with their aggregate and per-term
scores. -/
noncomputable def searchHits (options : TfIdfOptions) (q : List Term) (c : Corpus)
    (docs : List (String × Document)) : List ScoredDocument :=
  docs.filterMap (fun p =>
    if 0 < aggScore options q p.2 c then
      some (ScoredDocument.mk p.2 (aggScore options q p.2 c) (queryScores options q p.2 c))
    else none)

theorem searchLoop_eq (options : TfIdfOptions) (q : List Term) (c : Corpus)
    (hind : c.is_indexed = true) :
    ∀ (docs : List (String × Document)) (acc : List ScoredDocument),
      searchLoop options q c acc docs = .ok (acc ++ searchHits options q c docs) := by
  intro docs
  induction docs with
  | nil =>
      intro acc
      simp [searchLoop, searchHits]
  | cons p rest ih =>
      intro acc
      obtain ⟨did, d⟩ := p
      have hdl := searchDocLoop_eq options d c hind q (0, [])
      rw [show searchLoop options q c acc ((did, d) :: rest) =
          searchLoop options q c
            (if 0 < aggScore options q d c then
              acc ++ [ScoredDocument.mk d (aggScore options q d c) (queryScores options q d c)]
            else acc) rest from by simp [searchLoop, hdl]]
      rw [ih]
      by_cases hpos : 0 < aggScore options q d c
      · simp [searchHits, List.filterMap_cons, hpos]
      · simp [searchHits, List.filterMap_cons, hpos]

theorem search_eq (options : TfIdfOptions) (q : List Term) (c : Corpus)
    (hind : c.is_indexed = true) :
    search options q c = .ok (sortDocsDesc (searchHits options q c c.documents)) := by
  simp [search, hind, searchLoop_eq options q c hind c.documents []]

instance : IsTotal ScoredDocument (fun a b => b.score ≤ a.score) :=
  ⟨fun a b => le_total b.score a.score⟩

instance : IsTrans ScoredDocument (fun a b => b.score ≤ a.score) :=
  ⟨fun _ _ _ h1 h2 => le_trans h2 h1⟩

theorem sortDocsDesc_sorted (l : List ScoredDocument) :
    (sortDocsDesc l).Sorted (fun a b => b.score ≤ a.score) :=
  List.sorted_insertionSort _ l

theorem sortDocsDesc_perm (l : List ScoredDocument) : (sortDocsDesc l).Perm l :=
  List.perm_insertionSort _ l

theorem searchHits_map_document (options : TfIdfOptions) (q : List Term) (c : Corpus)
    (docs : List (String × Document)) :
    (searchHits options q c docs).map ScoredDocument.document =
      (docs.map Prod.snd).filter (fun d => decide (0 < aggScore options q d c)) := by
  induction docs with
  | nil => rfl
  | cons p rest ih =>
      by_cases hpos : 0 < aggScore options q p.2 c
      · simp [searchHits, List.filterMap_cons, hpos, List.filter_cons] at ih ⊢
        exact ih
      · simp [searchHits, List.filterMap_cons, hpos, List.filter_cons] at ih ⊢
        exact ih

theorem mem_searchHits (options : TfIdfOptions) (q : List Term) (c : Corpus)
    (docs : List (String × Document)) (sd : ScoredDocument)
    (h : sd ∈ searchHits options q c docs) :
    sd.score = aggScore options q sd.document c ∧ 0 < sd.score := by
  unfold searchHits at h
  obtain ⟨p, -, hp⟩ := List.mem_filterMap.1 h
  by_cases hpos : 0 < aggScore options q p.2 c
  · rw [if_pos hpos] at hp
    obtain rfl := Option.some_injective _ hp
    exact ⟨rfl, hpos⟩
  · rw [if_neg hpos] at hp
    cases hp

/-- Claim C5 (theorem, amended): on an indexed corpus `search` succeeds;
each returned document carries as its score the sum of `score_term` over
the non-stopword query terms; a document is kept exactly when that
aggregate is strictly positive (so every document with aggregate `≤ 0.0`
is excluded, not only those with aggregate exactly `0.0`); and the result
is sorted descending by aggregate score. -/
theorem claim_C5 (options : TfIdfOptions) (q : List Term) (c : Corpus)
    (hind : c.is_indexed = true) :
    search options q c = .ok (sortDocsDesc (searchHits options q c c.documents)) ∧
    (∀ sd ∈ sortDocsDesc (searchHits options q c c.documents),
      sd.score = aggScore options q sd.document c ∧ 0 < sd.score) ∧
    ((sortDocsDesc (searchHits options q c c.documents)).map ScoredDocument.document).Perm
      ((c.documents.map Prod.snd).filter (fun d => decide (0 < aggScore options q d c))) ∧
    (sortDocsDesc (searchHits options q c c.documents)).Sorted
      (fun a b => b.score ≤ a.score) := by
  refine ⟨search_eq options q c hind, ?_, ?_, sortDocsDesc_sorted _⟩
  · intro sd hsd
    exact mem_searchHits options q c c.documents sd
      ((sortDocsDesc_perm _).mem_iff.1 hsd)
  · rw [← searchHits_map_document]
    exact (sortDocsDesc_perm _).map _

/-- The single-document corpus whose only term has negative smoothed IDF,
used to refute the exactly-zero exclusion reading of C5. -/
def negDoc : Document := (Document.new "n1" "neg").add_term (Term.new "neg")

/-- The indexed corpus containing only `negDoc`. -/
def negCorpus : Corpus := (((Corpus.new "nc" "Neg").add_document negDoc).2).build_index

theorem negCorpus_agg :
    aggScore TfIdfOptions.default [Term.new "neg"] negDoc negCorpus =
      ((Real.log (1 / 2) : ℝ) : EReal) := by
  have htf : negDoc.term_frequency (Term.new "neg") = 1 := by decide
  have hdfq : negCorpus.document_frequency (Term.new "neg") = 1 := by decide
  have hdc : negCorpus.document_count = 1 := by decide
  have htfv : tfValue TfIdfOptions.default (Term.new "neg") negDoc = 1 := by
    rw [tfValue]
    norm_num [TfIdfOptions.default, htf]
  have hidfv : idfValue TfIdfOptions.default (Term.new "neg") negCorpus =
      ((Real.log (1 / 2) : ℝ) : EReal) := by
    rw [idfValue]
    norm_num [TfIdfOptions.default, hdfq, hdc, flog]
  have hkept : keptTerms TfIdfOptions.default [Term.new "neg"] = [Term.new "neg"] := by rfl
  unfold aggScore queryScores
  rw [hkept]
  simp [TfIdfScore.new, htfv, hidfv, ← EReal.coe_mul]

/-- Claim C5 (counterexample): in `negCorpus` the only document has
aggregate score `ln(1/2) ≠ 0.0` for the query `["neg"]` under default
options, yet `search` excludes it (the code keeps only strictly positive
aggregates), refuting "excluded iff the aggregate is exactly 0.0". -/
theorem claim_C5_counterexample :
    negDoc ∈ negCorpus.documents.map Prod.snd ∧
    aggScore TfIdfOptions.default [Term.new "neg"] negDoc negCorpus ≠ 0 ∧
    search TfIdfOptions.default [Term.new "neg"] negCorpus = .ok [] := by
  have hlog : Real.log (1 / 2) < 0 := Real.log_neg (by norm_num) (by norm_num)
  have hne : aggScore TfIdfOptions.default [Term.new "neg"] negDoc negCorpus ≠ 0 := by
    rw [negCorpus_agg]
    exact_mod_cast hlog.ne
  have hnotpos : ¬0 < aggScore TfIdfOptions.default [Term.new "neg"] negDoc negCorpus := by
    rw [negCorpus_agg]
    rw [← EReal.coe_zero, EReal.coe_lt_coe_iff]
    exact not_lt.2 hlog.le
  refine ⟨by decide, hne, ?_⟩
  rw [search_eq TfIdfOptions.default [Term.new "neg"] negCorpus rfl]
  have hdocs : negCorpus.documents = [("n1", negDoc)] := by rfl
  rw [hdocs]
  have hhits : searchHits TfIdfOptions.default [Term.new "neg"] negCorpus
      [("n1", negDoc)] = [] := by
    simp [searchHits, List.filterMap_cons, hnotpos]
  rw [hhits]
  rfl

/-- Claim C5 (witness for the amended theorem): the scenario corpus. -/
theorem claim_C5_witness :
    scenCorpus.is_indexed = true ∧
    search TfIdfOptions.default [Term.new "test"] scenCorpus =
      .ok (sortDocsDesc (searchHits TfIdfOptions.default [Term.new "test"] scenCorpus
        scenCorpus.documents)) :=
  ⟨rfl,
   (claim_C5 TfIdfOptions.default [Term.new "test"] scenCorpus rfl).1⟩

/-! ### Cosine-similarity infrastructure (claim C9) -/

theorem slookup_mem {α : Type _} {m : List (String × α)} {k : String} {v : α}
    (h : slookup k m = some v) : (k, v) ∈ m := by
  induction m with
  | nil => cases h
  | cons hd rest ih =>
      obtain ⟨k', v'⟩ := hd
      by_cases hk : k' == k
      · have hkeq : k' = k := by simpa using hk
        have hveq : v' = v := by simpa [slookup, hk] using h
        subst hkeq
        subst hveq
        exact List.mem_cons_self _ _
      · have h' : slookup k rest = some v := by simpa [slookup, hk] using h
        exact List.mem_cons_of_mem _ (ih h')

theorem slookup_of_mem_nodup {α : Type _} : ∀ {m : List (String × α)} {p : String × α},
    (m.map Prod.fst).Nodup → p ∈ m → slookup p.1 m = some p.2 := by
  intro m
  induction m with
  | nil => intro p _ hp; cases hp
  | cons hd rest ih =>
      intro p hnd hp
      simp only [List.map_cons, List.nodup_cons] at hnd
      obtain ⟨hnotin, hndrest⟩ := hnd
      rcases List.mem_cons.1 hp with heq | hp'
      · subst heq
        simp [slookup]
      · have hne : ¬hd.1 == p.1 := by
          simp only [beq_iff_eq]
          intro heq
          exact hnotin (heq ▸ List.mem_map_of_mem Prod.fst hp')
        obtain ⟨k', v'⟩ := hd
        simpa [slookup, hne] using ih hndrest hp'

theorem sinsert_entries {α : Type _} {m : List (String × α)} {k : String} {v : α}
    {p : String × α} (h : p ∈ sinsert m k v) : p ∈ m ∨ p = (k, v) := by
  induction m with
  | nil => simpa [sinsert] using h
  | cons hd rest ih =>
      obtain ⟨k', v'⟩ := hd
      by_cases hk : k' == k
      · have hkeq : k' = k := by simpa using hk
        rw [show sinsert ((k', v') :: rest) k v = (k', v) :: rest from by
          simp [sinsert, hk]] at h
        rcases List.mem_cons.1 h with rfl | h
        · exact Or.inr (by rw [hkeq])
        · exact Or.inl (List.mem_cons_of_mem _ h)
      · rw [show sinsert ((k', v') :: rest) k v = (k', v') :: sinsert rest k v from by
          simp [sinsert, hk]] at h
        rcases List.mem_cons.1 h with rfl | h
        · exact Or.inl (List.mem_cons_self _ _)
        · rcases ih h with h | h
          · exact Or.inl (List.mem_cons_of_mem _ h)
          · exact Or.inr h

theorem mem_keys_sinsert {α : Type _} (m : List (String × α)) (k : String) (v : α)
    (s : String) :
    s ∈ (sinsert m k v).map Prod.fst ↔ s ∈ m.map Prod.fst ∨ s = k := by
  induction m with
  | nil => simp [sinsert]
  | cons hd rest ih =>
      obtain ⟨k', v'⟩ := hd
      by_cases hk : k' == k
      · have hkeq : k' = k := by simpa using hk
        rw [show sinsert ((k', v') :: rest) k v = (k', v) :: rest from by
          simp [sinsert, hk]]
        subst hkeq
        simp only [List.map_cons, List.mem_cons]
        constructor
        · exact Or.inl
        · rintro ((h | h) | h)
          · exact Or.inl h
          · exact Or.inr h
          · exact Or.inl h
      · rw [show sinsert ((k', v') :: rest) k v = (k', v') :: sinsert rest k v from by
          simp [sinsert, hk]]
        simp only [List.map_cons, List.mem_cons, ih]
        tauto

theorem sinsert_keys_nodup {α : Type _} {m : List (String × α)} (k : String) (v : α)
    (hnd : (m.map Prod.fst).Nodup) : ((sinsert m k v).map Prod.fst).Nodup := by
  induction m with
  | nil => simp [sinsert]
  | cons hd rest ih =>
      obtain ⟨k', v'⟩ := hd
      simp only [List.map_cons, List.nodup_cons] at hnd
      obtain ⟨hnotin, hndrest⟩ := hnd
      by_cases hk : k' == k
      · rw [show sinsert ((k', v') :: rest) k v = (k', v) :: rest from by
          simp [sinsert, hk]]
        simp only [List.map_cons, List.nodup_cons]
        exact ⟨hnotin, hndrest⟩
      · rw [show sinsert ((k', v') :: rest) k v = (k', v') :: sinsert rest k v from by
          simp [sinsert, hk]]
        simp only [List.map_cons, List.nodup_cons]
        refine ⟨?_, ih hndrest⟩
        rw [mem_keys_sinsert]
        rintro (h | h)
        · exact hnotin h
        · exact absurd (h ▸ hk) (by simp)

theorem foldl_sinsert_score_entries (l : List TfIdfScore) :
    ∀ (m : List (String × EReal)) (p : String × EReal),
      p ∈ l.foldl (fun m s => sinsert m s.term.text s.score) m →
      p ∈ m ∨ ∃ s ∈ l, p = (s.term.text, s.score) := by
  induction l with
  | nil => exact fun m p h => Or.inl h
  | cons s rest ih =>
      intro m p h
      rcases ih _ p h with h' | ⟨s', hs', hp⟩
      · rcases sinsert_entries h' with h'' | h''
        · exact Or.inl h''
        · exact Or.inr ⟨s, List.mem_cons_self _ _, h''⟩
      · exact Or.inr ⟨s', List.mem_cons_of_mem _ hs', hp⟩

theorem foldl_sinsert_score_keys_nodup (l : List TfIdfScore) :
    ∀ m : List (String × EReal), (m.map Prod.fst).Nodup →
      ((l.foldl (fun m s => sinsert m s.term.text s.score) m).map Prod.fst).Nodup := by
  induction l with
  | nil => exact fun m h => h
  | cons s rest ih => exact fun m h => ih _ (sinsert_keys_nodup _ _ h)

theorem sum_real (l : List EReal) (h : ∀ x ∈ l, ∃ r : ℝ, x = (r : EReal)) :
    ∃ r : ℝ, l.sum = (r : EReal) := by
  induction l with
  | nil => exact ⟨0, rfl⟩
  | cons x rest ih =>
      obtain ⟨r, hr⟩ := h x (List.mem_cons_self _ _)
      obtain ⟨r', hr'⟩ := ih (fun y hy => h y (List.mem_cons_of_mem _ hy))
      exact ⟨r + r', by rw [List.sum_cons, hr, hr', ← EReal.coe_add]⟩

theorem coe_div_coe (a b : ℝ) : ((a : EReal) / (b : EReal)) = ((a / b : ℝ) : EReal) := by
  rw [div_eq_mul_inv, div_eq_mul_inv, ← EReal.coe_inv, ← EReal.coe_mul]

theorem esqrt_coe (r : ℝ) : esqrt (r : EReal) = ((Real.sqrt r : ℝ) : EReal) := by
  rw [esqrt, if_neg (EReal.coe_ne_top r), EReal.toReal_coe]

theorem idfValue_real (options : TfIdfOptions) (t : Term) (c : Corpus)
    (hdc : c.document_count ≠ 0) : ∃ r : ℝ, idfValue options t c = (r : EReal) := by
  rw [idfValue]
  cases hov : options.idf_weighting with
  | some f => exact ⟨f (c.document_frequency t) c.document_count, rfl⟩
  | none =>
      by_cases hsm : options.apply_smoothing
      · rw [if_pos hsm]
        have hpos : 0 < (c.document_count : ℝ) / ((c.document_frequency t : ℝ) + 1) := by
          apply div_pos
          · exact_mod_cast Nat.pos_of_ne_zero hdc
          · positivity
        exact ⟨Real.log ((c.document_count : ℝ) / ((c.document_frequency t : ℝ) + 1)),
          by rw [flog, if_pos hpos]⟩
      · rw [if_neg hsm]
        exact ⟨c.inverse_document_frequency t, rfl⟩

theorem new_score_real (options : TfIdfOptions) (t : Term) (d : Document) (c : Corpus)
    (hdc : c.document_count ≠ 0) :
    ∃ r : ℝ, (TfIdfScore.new t (tfValue options t d) (idfValue options t c)).score =
      (r : EReal) := by
  obtain ⟨ri, hri⟩ := idfValue_real options t c hdc
  exact ⟨tfValue options t d * ri, by
    rw [TfIdfScore.new]
    show (tfValue options t d : EReal) * idfValue options t c = _
    rw [hri, ← EReal.coe_mul]⟩

theorem scoreTermsLoop_mem (options : TfIdfOptions) (d : Document) (c : Corpus)
    (hind : c.is_indexed = true) :
    ∀ (l : List (Term × Nat)) (scores : List TfIdfScore),
      scoreTermsLoop options d c l = .ok scores → ∀ s ∈ scores,
      ∃ t : Term, s = TfIdfScore.new t (tfValue options t d) (idfValue options t c) := by
  intro l
  induction l with
  | nil =>
      intro scores h s hs
      have hsc : scores = [] := by simpa [scoreTermsLoop] using h.symm
      rw [hsc] at hs
      cases hs
  | cons hd rest ih =>
      intro scores h s hs
      obtain ⟨term, cnt⟩ := hd
      by_cases hf : (options.filter_stopwords && term.is_stopword) = true
      · rw [show scoreTermsLoop options d c ((term, cnt) :: rest) =
            scoreTermsLoop options d c rest from by simp [scoreTermsLoop, hf]] at h
        exact ih scores h s hs
      · have hf' : (options.filter_stopwords && term.is_stopword) = false := by simpa using hf
        cases hrest : scoreTermsLoop options d c rest with
        | error e =>
            rw [show scoreTermsLoop options d c ((term, cnt) :: rest) = .error e from by
              simp [scoreTermsLoop, hf',
                calculate_term_tfidf_ok options term d c hind hf', hrest, Except.map]] at h
            cases h
        | ok scores' =>
            rw [show scoreTermsLoop options d c ((term, cnt) :: rest) =
                .ok (TfIdfScore.new term (tfValue options term d)
                  (idfValue options term c) :: scores') from by
              simp [scoreTermsLoop, hf',
                calculate_term_tfidf_ok options term d c hind hf', hrest, Except.map]] at h
            have hscores : scores = TfIdfScore.new term (tfValue options term d)
                (idfValue options term c) :: scores' := by
              simpa using h.symm
            rw [hscores] at hs
            rcases List.mem_cons.1 hs with rfl | hs
            · exact ⟨term, rfl⟩
            · exact ih scores' hrest s hs

theorem sortScoresDesc_perm (l : List TfIdfScore) : (sortScoresDesc l).Perm l :=
  List.perm_insertionSort _ l

theorem normalize_scores_real (scores : List TfIdfScore)
    (hfin : ∀ s ∈ scores, ∃ r : ℝ, s.score = (r : EReal)) :
    ∀ s' ∈ normalize_scores scores, ∃ r : ℝ, s'.score = (r : EReal) := by
  intro s' hs'
  unfold normalize_scores at hs'
  by_cases hS : ((scores.map (fun s => s.score * s.score)).sum : EReal) = 0
  · rw [if_pos hS] at hs'
    exact hfin s' hs'
  · rw [if_neg hS] at hs'
    obtain ⟨s, hsmem, rfl⟩ := List.mem_map.1 hs'
    obtain ⟨r, hr⟩ := hfin s hsmem
    obtain ⟨rS, hrS⟩ := sum_real (scores.map (fun s => s.score * s.score)) (by
      intro x hx
      obtain ⟨s₀, hs₀, rfl⟩ := List.mem_map.1 hx
      obtain ⟨r₀, hr₀⟩ := hfin s₀ hs₀
      exact ⟨r₀ * r₀, by rw [hr₀, ← EReal.coe_mul]⟩)
    refine ⟨r / Real.sqrt rS, ?_⟩
    show s.score / esqrt ((scores.map (fun s => s.score * s.score)).sum) = _
    rw [hr, hrS, esqrt_coe, coe_div_coe]

theorem calculate_document_tfidf_real (options : TfIdfOptions) (d : Document) (c : Corpus)
    (hind : c.is_indexed = true) (hdc : c.document_count ≠ 0)
    (scores : List TfIdfScore) (h : calculate_document_tfidf options d c = .ok scores) :
    ∀ s ∈ scores, ∃ r : ℝ, s.score = (r : EReal) := by
  obtain ⟨scores₀, h₀⟩ := scoreTermsLoop_ok options d c hind d.term_frequencies
  have hfin₀ : ∀ s ∈ scores₀, ∃ r : ℝ, s.score = (r : EReal) := by
    intro s hs
    obtain ⟨t, rfl⟩ := scoreTermsLoop_mem options d c hind _ _ h₀ s hs
    exact new_score_real options t d c hdc
  have hres : scores =
      sortScoresDesc (if options.normalize then normalize_scores scores₀ else scores₀) := by
    have := h.symm
    rw [calculate_document_tfidf] at this
    simpa [hind, h₀] using this
  intro s hs
  rw [hres] at hs
  have hs' : s ∈ (if options.normalize then normalize_scores scores₀ else scores₀) :=
    (sortScoresDesc_perm _).mem_iff.1 hs
  by_cases hn : options.normalize
  · rw [if_pos hn] at hs'
    exact normalize_scores_real scores₀ hfin₀ s hs'
  · rw [if_neg hn] at hs'
    exact hfin₀ s hs'

/-- The term-text-to-score vector `generate_document_vectors` builds for
one document (empty if the per-document scoring were to fail, which cannot
happen on an indexed corpus). -/
noncomputable def docVector (options : TfIdfOptions) (c : Corpus) (d : Document) :
    List (String × EReal) :=
  match calculate_document_tfidf options d c with
  | .ok scores => scores.foldl (fun m s => sinsert m s.term.text s.score) []
  | .error _ => []

theorem docVector_eq (options : TfIdfOptions) (c : Corpus) (d : Document)
    (scores : List TfIdfScore) (h : calculate_document_tfidf options d c = .ok scores) :
    docVector options c d = scores.foldl (fun m s => sinsert m s.term.text s.score) [] := by
  rw [docVector, h]

theorem docVector_real (options : TfIdfOptions) (c : Corpus) (d : Document)
    (hind : c.is_indexed = true) (hdc : c.document_count ≠ 0) :
    ∀ p ∈ docVector options c d, ∃ r : ℝ, p.2 = (r : EReal) := by
  obtain ⟨scores, h⟩ := calculate_document_tfidf_ok options d c hind
  intro p hp
  rw [docVector_eq options c d scores h] at hp
  rcases foldl_sinsert_score_entries scores [] p hp with h' | ⟨s, hsmem, rfl⟩
  · cases h'
  · exact calculate_document_tfidf_real options d c hind hdc scores h s hsmem

theorem docVector_keys_nodup (options : TfIdfOptions) (c : Corpus) (d : Document) :
    ((docVector options c d).map Prod.fst).Nodup := by
  cases h : calculate_document_tfidf options d c with
  | ok scores =>
      rw [docVector_eq options c d scores h]
      exact foldl_sinsert_score_keys_nodup scores [] (by simp)
  | error e =>
      have hd : docVector options c d = [] := by rw [docVector, h]
      rw [hd]
      simp

theorem sinsert_of_not_mem {α : Type _} {m : List (String × α)} {k : String} (v : α)
    (h : k ∉ m.map Prod.fst) : sinsert m k v = m ++ [(k, v)] := by
  induction m with
  | nil => rfl
  | cons hd rest ih =>
      obtain ⟨k', v'⟩ := hd
      simp only [List.map_cons, List.mem_cons] at h
      push_neg at h
      have hbeq : (k' == k) = false := by
        simp only [beq_eq_false_iff_ne, ne_eq]
        exact fun hh => h.1 hh.symm
      rw [show sinsert ((k', v') :: rest) k v = (k', v') :: sinsert rest k v from by
        simp [sinsert, hbeq]]
      rw [ih h.2]
      rfl

theorem foldl_sinsert_fresh {α : Type _} (v : String × Document → α) :
    ∀ (docs : List (String × Document)) (acc : List (String × α)),
      (∀ p ∈ docs, p.2.id ∉ acc.map Prod.fst) → ((docs.map (fun p => p.2.id)).Nodup) →
      docs.foldl (fun acc p => sinsert acc p.2.id (v p)) acc =
        acc ++ docs.map (fun p => (p.2.id, v p)) := by
  intro docs
  induction docs with
  | nil => intro acc _ _; simp
  | cons p rest ih =>
      intro acc hfresh hnd
      simp only [List.map_cons, List.nodup_cons] at hnd
      obtain ⟨hpnotin, hndrest⟩ := hnd
      simp only [List.foldl_cons]
      rw [sinsert_of_not_mem (v p) (hfresh p (List.mem_cons_self _ _))]
      rw [ih (acc ++ [(p.2.id, v p)]) ?_ hndrest]
      · simp
      · intro q hq
        simp only [List.map_append, List.mem_append, List.map_cons, List.map_nil,
          List.mem_singleton, List.mem_cons]
        rintro (h | h | h)
        · exact hfresh q (List.mem_cons_of_mem _ hq) h
        · exact hpnotin (h ▸ List.mem_map_of_mem (fun p => p.2.id) hq)
        · cases h

theorem generate_go_eq (options : TfIdfOptions) (c : Corpus) (hind : c.is_indexed = true) :
    ∀ (docs : List (String × Document)) (acc : List (String × List (String × EReal))),
      generate_document_vectors.go options c docs acc =
        .ok (docs.foldl (fun acc p => sinsert acc p.2.id (docVector options c p.2)) acc) := by
  intro docs
  induction docs with
  | nil => intro acc; rfl
  | cons p rest ih =>
      intro acc
      obtain ⟨did, d⟩ := p
      obtain ⟨scores, h⟩ := calculate_document_tfidf_ok options d c hind
      rw [show generate_document_vectors.go options c ((did, d) :: rest) acc =
          generate_document_vectors.go options c rest
            (sinsert acc d.id (scores.foldl (fun m s => sinsert m s.term.text s.score) []))
          from by simp [generate_document_vectors.go, h]]
      rw [ih]
      simp [List.foldl_cons, docVector_eq options c d scores h]

theorem generate_document_vectors_eq (options : TfIdfOptions) (c : Corpus)
    (hind : c.is_indexed = true)
    (hids : ∀ p ∈ c.documents, p.2.id = p.1)
    (hnd : (c.documents.map Prod.fst).Nodup) :
    generate_document_vectors options c =
      .ok (c.documents.map (fun p => (p.1, docVector options c p.2))) := by
  have hidnd : (c.documents.map (fun p => p.2.id)).Nodup := by
    rw [List.map_congr_left (fun p hp => hids p hp : ∀ p ∈ c.documents, p.2.id = p.1)]
    exact hnd
  have hfold := foldl_sinsert_fresh (fun p => docVector options c p.2) c.documents []
    (by intro p _ h; cases h) hidnd
  have hgo := generate_go_eq options c hind c.documents []
  rw [hfold] at hgo
  simp only [List.nil_append] at hgo
  have hmapeq : c.documents.map (fun p => (p.2.id, docVector options c p.2)) =
      c.documents.map (fun p => (p.1, docVector options c p.2)) :=
    List.map_congr_left (fun p hp => by rw [hids p hp])
  rw [hmapeq] at hgo
  simp only [generate_document_vectors, hind, Bool.not_true, Bool.false_eq_true, if_false]
  exact hgo

theorem slookup_map_snd {α : Type _} (l : List (String × Document)) (k : String)
    (d : Document) (g : Document → α) (h : slookup k l = some d) :
    slookup k (l.map (fun p => (p.1, g p.2))) = some (g d) := by
  induction l with
  | nil => cases h
  | cons hd rest ih =>
      obtain ⟨k', d'⟩ := hd
      by_cases hk : k' == k
      · have hdeq : d' = d := by simpa [slookup, hk] using h
        subst hdeq
        simp [slookup, hk]
      · have h' : slookup k rest = some d := by simpa [slookup, hk] using h
        simpa [slookup, hk] using ih h'

theorem sum_map_coe {α : Type _} (l : List α) (f : α → ℝ) :
    (l.map (fun a => ((f a : ℝ) : EReal))).sum = (((l.map f).sum : ℝ) : EReal) := by
  induction l with
  | nil => rfl
  | cons a rest ih =>
      rw [List.map_cons, List.sum_cons, List.map_cons, List.sum_cons, ih, ← EReal.coe_add]

/-- The self-similarity sum of a document's vector: the sum, over the
deduplicated key union of the vector with itself, of the squared looked-up
values — the common value of the dot product and both magnitudes in
`cosine_similarity(id, id, corpus)`. -/
noncomputable def cosSum (options : TfIdfOptions) (c : Corpus) (d : Document) : EReal :=
  (((docVector options c d).map Prod.fst ++ (docVector options c d).map Prod.fst).dedup.map
    (fun t => ((slookup t (docVector options c d)).getD 0 : EReal) *
      ((slookup t (docVector options c d)).getD 0 : EReal))).sum

theorem cosine_self_reduced (options : TfIdfOptions) (c : Corpus) (did : String)
    (d : Document) (hind : c.is_indexed = true)
    (hids : ∀ p ∈ c.documents, p.2.id = p.1)
    (hnd : (c.documents.map Prod.fst).Nodup)
    (hdoc : slookup did c.documents = some d) :
    cosine_similarity options did did c =
      if esqrt (cosSum options c d) * esqrt (cosSum options c d) = 0 then .ok 0
      else .ok (cosSum options c d /
        (esqrt (cosSum options c d) * esqrt (cosSum options c d))) := by
  have hgen := generate_document_vectors_eq options c hind hids hnd
  have hlook := slookup_map_snd c.documents did d (docVector options c) hdoc
  simp only [cosine_similarity, hgen, hlook, cosSum]

/-- Claim C9 (theorem): for an indexed corpus with consistent, duplicate-free
document keys, the cosine self-similarity of any present document is
exactly `1.0` when its generated score vector has a non-zero entry, and
exactly `0.0` (the zero-magnitude policy) when the vector is entirely
zero. -/
theorem claim_C9 (options : TfIdfOptions) (c : Corpus) (did : String) (d : Document)
    (hind : c.is_indexed = true)
    (hids : ∀ p ∈ c.documents, p.2.id = p.1)
    (hnd : (c.documents.map Prod.fst).Nodup)
    (hdoc : slookup did c.documents = some d) :
    ((∃ p ∈ docVector options c d, p.2 ≠ 0) →
      cosine_similarity options did did c = .ok 1) ∧
    ((∀ p ∈ docVector options c d, p.2 = 0) →
      cosine_similarity options did did c = .ok 0) := by
  have hdc : c.document_count ≠ 0 := by
    intro hlen
    rw [Corpus.document_count, List.length_eq_zero] at hlen
    rw [hlen] at hdoc
    cases hdoc
  have hred := cosine_self_reduced options c did d hind hids hnd hdoc
  have hval : ∀ t : String,
      ∃ r : ℝ, ((slookup t (docVector options c d)).getD 0 : EReal) = (r : EReal) := by
    intro t
    cases hl : slookup t (docVector options c d) with
    | none => exact ⟨0, by simp [hl]⟩
    | some x =>
        obtain ⟨r, hr⟩ := docVector_real options c d hind hdc (t, x) (slookup_mem hl)
        exact ⟨r, by simpa [hl] using hr⟩
  constructor
  · rintro ⟨p, hpmem, hpne⟩
    choose g hg using hval
    set v := docVector options c d with hv
    set K := (v.map Prod.fst ++ v.map Prod.fst).dedup with hK
    have hmc : K.map (fun t => ((slookup t v).getD 0 : EReal) *
        ((slookup t v).getD 0 : EReal)) =
        K.map (fun t => ((g t * g t : ℝ) : EReal)) :=
      List.map_congr_left (fun t _ => by rw [hg t, ← EReal.coe_mul])
    have hsum : cosSum options c d = (((K.map (fun t => g t * g t)).sum : ℝ) : EReal) := by
      rw [cosSum, ← hv, ← hK, hmc, sum_map_coe]
    have hvnd : (v.map Prod.fst).Nodup := docVector_keys_nodup options c d
    have hlookp : slookup p.1 v = some p.2 := slookup_of_mem_nodup hvnd hpmem
    have hgp : p.2 = ((g p.1 : ℝ) : EReal) := by
      have h' := hg p.1
      rw [hlookp] at h'
      simpa using h'
    have hgne : g p.1 ≠ 0 := by
      intro h0
      apply hpne
      rw [hgp, h0, EReal.coe_zero]
    have hmemK : p.1 ∈ K := by
      rw [hK]
      exact List.mem_dedup.2 (List.mem_append_left _ (List.mem_map_of_mem Prod.fst hpmem))
    have hsq : g p.1 * g p.1 ∈ K.map (fun t => g t * g t) := List.mem_map_of_mem _ hmemK
    have hnonneg : ∀ x ∈ K.map (fun t => g t * g t), (0 : ℝ) ≤ x := by
      intro x hx
      obtain ⟨t, -, rfl⟩ := List.mem_map.1 hx
      exact mul_self_nonneg _
    have hpos : (0 : ℝ) < (K.map (fun t => g t * g t)).sum :=
      lt_of_lt_of_le (mul_self_pos.2 hgne) (List.single_le_sum hnonneg _ hsq)
    have hne0 : ((K.map (fun t => g t * g t)).sum) ≠ 0 := ne_of_gt hpos
    rw [hred, hsum, esqrt_coe, ← EReal.coe_mul, Real.mul_self_sqrt (le_of_lt hpos)]
    rw [if_neg (fun hc => hne0 (EReal.coe_eq_zero.mp hc))]
    rw [coe_div_coe, div_self hne0, EReal.coe_one]
  · intro h0
    have hvz : ∀ t : String, ((slookup t (docVector options c d)).getD 0 : EReal) = 0 := by
      intro t
      cases hl : slookup t (docVector options c d) with
      | none => simp [hl]
      | some x =>
          have hx := h0 (t, x) (slookup_mem hl)
          simpa [hl] using hx
    have hsum0 : cosSum options c d = 0 := by
      rw [cosSum]
      apply List.sum_eq_zero
      intro x hx
      obtain ⟨t, -, rfl⟩ := List.mem_map.1 hx
      rw [hvz t, zero_mul]
    have hesq : esqrt (0 : EReal) = 0 := by
      rw [show (0 : EReal) = ((0 : ℝ) : EReal) from rfl, esqrt_coe, Real.sqrt_zero]
    rw [hred, hsum0, hesq, zero_mul, if_pos rfl]

/-- Options with L2 normalization off, used by the C9 witness. -/
def optsNoNormalize : TfIdfOptions := { TfIdfOptions.default with normalize := false }

/-- A document with no terms, whose score vector is empty. -/
def soloDoc : Document := Document.new "s1" ""

/-- The indexed corpus containing only the term-less `soloDoc`. -/
def soloCorpus : Corpus := (((Corpus.new "sc" "Solo").add_document soloDoc).2).build_index

theorem normalize_scores_nil : normalize_scores [] = [] := by
  simp [normalize_scores]

theorem calculate_document_tfidf_empty (options : TfIdfOptions) (d : Document) (c : Corpus)
    (hind : c.is_indexed = true) (hempty : d.term_frequencies = []) :
    calculate_document_tfidf options d c = .ok [] := by
  rw [calculate_document_tfidf, hempty]
  rw [if_neg (fun hc => by rw [hind] at hc; exact absurd hc (by decide))]
  have hstep : scoreTermsLoop options d c [] = .ok [] := rfl
  simp only [hstep]
  by_cases hn : options.normalize <;>
    simp [hn, normalize_scores_nil, sortScoresDesc, List.insertionSort]

theorem soloCorpus_docVector :
    docVector TfIdfOptions.default soloCorpus soloDoc = [] := by
  rw [docVector_eq _ _ _ _
    (calculate_document_tfidf_empty TfIdfOptions.default soloDoc soloCorpus rfl rfl)]
  rfl

theorem negCorpus_scored :
    calculate_document_tfidf optsNoNormalize negDoc negCorpus =
      .ok [TfIdfScore.new (Term.new "neg")
        (tfValue optsNoNormalize (Term.new "neg") negDoc)
        (idfValue optsNoNormalize (Term.new "neg") negCorpus)] := by
  have hskip : (optsNoNormalize.filter_stopwords && (Term.new "neg").is_stopword) = false :=
    rfl
  have hcalc := calculate_term_tfidf_ok optsNoNormalize (Term.new "neg") negDoc negCorpus
    rfl hskip
  have hloop : scoreTermsLoop optsNoNormalize negDoc negCorpus negDoc.term_frequencies =
      .ok [TfIdfScore.new (Term.new "neg")
        (tfValue optsNoNormalize (Term.new "neg") negDoc)
        (idfValue optsNoNormalize (Term.new "neg") negCorpus)] := by
    rw [show negDoc.term_frequencies = [(Term.new "neg", 1)] from rfl]
    simp [scoreTermsLoop, hskip, hcalc, Except.map]
  rw [calculate_document_tfidf]
  rw [if_neg (by decide)]
  simp only [hloop]
  have hn : optsNoNormalize.normalize = false := rfl
  simp [hn, sortScoresDesc, List.insertionSort, List.orderedInsert]

theorem negCorpus_docVector :
    docVector optsNoNormalize negCorpus negDoc =
      [("neg",
        (TfIdfScore.new (Term.new "neg")
          (tfValue optsNoNormalize (Term.new "neg") negDoc)
          (idfValue optsNoNormalize (Term.new "neg") negCorpus)).score)] := by
  rw [docVector_eq _ _ _ _ negCorpus_scored]
  rfl

theorem negCorpus_score_value :
    (TfIdfScore.new (Term.new "neg")
      (tfValue optsNoNormalize (Term.new "neg") negDoc)
      (idfValue optsNoNormalize (Term.new "neg") negCorpus)).score =
    ((Real.log (1 / 2) : ℝ) : EReal) := by
  have htf : negDoc.term_frequency (Term.new "neg") = 1 := by decide
  have hdfq : negCorpus.document_frequency (Term.new "neg") = 1 := by decide
  have hdc : negCorpus.document_count = 1 := by decide
  have htfv : tfValue optsNoNormalize (Term.new "neg") negDoc = 1 := by
    rw [tfValue]
    norm_num [optsNoNormalize, TfIdfOptions.default, htf]
  have hidfv : idfValue optsNoNormalize (Term.new "neg") negCorpus =
      ((Real.log (1 / 2) : ℝ) : EReal) := by
    rw [idfValue]
    norm_num [optsNoNormalize, TfIdfOptions.default, hdfq, hdc, flog]
  rw [TfIdfScore.new]
  show ((tfValue optsNoNormalize (Term.new "neg") negDoc : ℝ) : EReal) *
    idfValue optsNoNormalize (Term.new "neg") negCorpus = _
  rw [htfv, hidfv, ← EReal.coe_mul, one_mul]

/-- Claim C9 (witness): self-similarity exactly `1` for a one-term document
with a non-zero vector, and exactly `0` for a term-less document with an
empty vector. -/
theorem claim_C9_witness :
    cosine_similarity optsNoNormalize "n1" "n1" negCorpus = .ok 1 ∧
    cosine_similarity TfIdfOptions.default "s1" "s1" soloCorpus = .ok 0 := by
  constructor
  · refine (claim_C9 optsNoNormalize negCorpus "n1" negDoc rfl (by decide) (by decide)
      rfl).1 ⟨("neg",
        (TfIdfScore.new (Term.new "neg")
          (tfValue optsNoNormalize (Term.new "neg") negDoc)
          (idfValue optsNoNormalize (Term.new "neg") negCorpus)).score), ?_, ?_⟩
    · rw [negCorpus_docVector]
      exact List.mem_cons_self _ _
    · show (TfIdfScore.new (Term.new "neg") _ _).score ≠ 0
      rw [negCorpus_score_value]
      have hlog : Real.log (1 / 2) < 0 := Real.log_neg (by norm_num) (by norm_num)
      exact fun hc => absurd (EReal.coe_eq_zero.mp hc) hlog.ne
  · refine (claim_C9 TfIdfOptions.default soloCorpus "s1" soloDoc rfl (by decide)
      (by decide) rfl).2 ?_
    rw [soloCorpus_docVector]
    intro p hp
    cases hp

end TfIdfRs
